import Mathlib

/-!
Shallow embedding of the md-converter repository's HTML rewriter
(`src/html_filter.py`) and character sanitizer (`src/utf8_sanitizer.py`).

The document model follows BeautifulSoup's tree: a node is either a tag
element (name, ordered attributes, ordered children) or a navigable string.
Python strings are modelled as lists of code points (`List Char`), which is
exact for the string operations the source uses.

The source mutates the soup in place over six passes; here each pass is a
pure function on trees.  Where the source iterates over a `find_all`
snapshot and mutates, the pure function follows document order exactly as
the mutation-order analysis dictates; the correspondence for each pass is
justified in the comment above its definition.
-/

namespace MdConv

/-- Python str, as a list of code points. -/
abbrev Str := List Char

/-- A BeautifulSoup node: a `NavigableString` or a `Tag` with name,
attributes (ordered mapping, names unique in practice) and children. -/
inductive Node where
  | text : Str → Node
  | elem : Str → List (Str × Str) → List Node → Node

/-- Whitespace for Python's `str.split()` / `str.strip()` (the ASCII
whitespace characters plus no-break space; the source's inputs are text,
for which this matches Python's notion of whitespace). -/
def pyWs (c : Char) : Bool :=
  c == ' ' || c == '\t' || c == '\n' || c == '\r' || c == '\x0b' || c == '\x0c' ||
    c == '\xa0'

/-- Python `str.strip()`. -/
def pyStrip (s : Str) : Str := ((s.dropWhile pyWs).reverse.dropWhile pyWs).reverse

/-- Python `str.split()` with no argument: maximal runs of non-whitespace. -/
def pySplit (s : Str) : List Str := (List.splitOnP pyWs s).filter (fun w => w ≠ [])

/-- `' '.join(s.split())`, the whitespace collapse used by the fifth pass. -/
def pyCollapse (s : Str) : Str := List.intercalate [' '] (pySplit s)

/-- Python `s.startswith(p)`. -/
def pyStarts (p s : Str) : Bool := p.isPrefixOf s

/-- Python `s.endswith(p)`. -/
def pyEnds (p s : Str) : Bool := p.reverse.isPrefixOf s.reverse

/-- Python `s[n:]` for `n ≥ 0`. -/
def pyDrop (n : Nat) (s : Str) : Str := s.drop n

/-- Python `s[:-n]` for `n > 0` (clamped at the empty string, as slicing is). -/
def pyDropRight (n : Nat) (s : Str) : Str := (s.reverse.drop n).reverse

/-- Python `s.replace(old, new)`: left-to-right, non-overlapping.  (For the
empty pattern Python inserts `new` everywhere; the source never calls it
with an empty pattern, and this model returns `s` unchanged then.) -/
def pyReplace (s old new : Str) : Str :=
  if h : old = [] then s
  else
    match s with
    | [] => []
    | c :: r =>
      if old.isPrefixOf (c :: r) then
        new ++ pyReplace ((c :: r).drop old.length) old new
      else
        c :: pyReplace r old new
termination_by s.length
decreasing_by
  · simp
    have : old.length ≠ 0 := fun hl => h (List.eq_nil_of_length_eq_zero hl)
    omega
  · simp

/-! ### The tag policy (`ALLOWED_TAGS`, `TAG_REPLACEMENTS` in the source) -/

/-- `ALLOWED_TAGS`: allowed tag names with their allowed attribute names. -/
def ALLOWED_TAGS : List (Str × List Str) :=
  [ ("h2".data, []), ("h3".data, []), ("p".data, []), ("strong".data, []),
    ("em".data, []),
    ("quote".data, ["cite".data, "author".data]),
    ("table".data, ["border".data, "cellpadding".data, "cellspacing".data]),
    ("thead".data, []), ("tbody".data, []), ("tr".data, []), ("th".data, []),
    ("td".data, []) ]

/-- `TAG_REPLACEMENTS`: disallowed tag names with their substitute. -/
def TAG_REPLACEMENTS : List (Str × Str) :=
  [ ("h1".data, "h2".data), ("h4".data, "h3".data), ("h5".data, "h3".data),
    ("h6".data, "p".data), ("ul".data, "p".data), ("ol".data, "p".data),
    ("li".data, "p".data), ("blockquote".data, "quote".data),
    ("code".data, "em".data), ("pre".data, "p".data), ("span".data, "p".data),
    ("div".data, "p".data), ("a".data, "em".data), ("img".data, "p".data),
    ("br".data, "p".data) ]

/-- Dictionary lookup (`tag.name in D` / `D[tag.name]`). -/
def lookup {α : Type} : List (Str × α) → Str → Option α
  | [], _ => none
  | (k, v) :: r, t => if k = t then some v else lookup r t

/-! ### BeautifulSoup primitives used by the source -/

mutual
/-- `tag.get_text()`: concatenation of all descendant strings, document order. -/
def getTextN : Node → Str
  | .text s => s
  | .elem _ _ cs => getTextF cs
termination_by structural n => n
def getTextF : List Node → Str
  | [] => []
  | n :: r => getTextN n ++ getTextF r
termination_by structural l => l
end

mutual
/-- `tag.string`: a single `NavigableString` child gives that string; a
single `Tag` child gives the child's `.string`; anything else gives `None`.
`stringOfF cs` is the `.string` of a tag whose children are `cs`. -/
def stringOfN : Node → Option Str
  | .text s => some s
  | .elem _ _ cs => stringOfF cs
termination_by structural n => n
def stringOfF : List Node → Option Str
  | [c] => stringOfN c
  | _ => none
termination_by structural l => l
end

/-- Python truthiness of `tag.string` (`if tag.string:`): it must exist and
be non-empty. -/
def stringTruthy : Option Str → Bool
  | some (_ :: _) => true
  | _ => false

mutual
/-- Number of nodes in a tree (for size bookkeeping in proofs). -/
def countN : Node → Nat
  | .text _ => 1
  | .elem _ _ cs => 1 + countF cs
termination_by structural n => n
def countF : List Node → Nat
  | [] => 0
  | n :: r => countN n + countF r
termination_by structural l => l
end

/-! ### First pass: list flattening

The source iterates over a snapshot of all `ul`/`ol` tags in document
order; for each it takes a snapshot of all `li` descendants, moves each
item's children into a fresh `p` inserted *immediately after* the list
(`insert_after`, so successive items end up in reverse order), and then
`decompose`s the list.

Mutation-order analysis (each `ul`/`ol` is visited exactly once, ancestors
before descendants):
* a maximal list (no `ul`/`ol` ancestor) is intact when visited; its `li`
  snapshot is the pre-order list of all `li` descendants, and every one of
  those items' child lists is still its original one when the item is
  processed, so each li yields a `p` holding its original children; the
  generated `p`s land after the list in reverse pre-order, and the list is
  then destroyed together with whatever content was not moved out of it;
* content moved into a generated `p` is transformed as follows: a nested
  `li` is left as an emptied husk (its children went to its own generated
  `p`); a nested `ul`/`ol` is visited later while sitting inside the
  generated `p` — by then all its `li`s are empty husks, so it inserts one
  empty `p` per `li` descendant at its own position and destroys itself;
* a `ul`/`ol` that sits inside another list but not inside any `li` is
  destroyed with the outer list before its own turn, so it contributes
  nothing further (operations on destroyed nodes have no visible effect).
-/

mutual
/-- The number of `li` elements in a subtree / forest (any depth). -/
def countLiN : Node → Nat
  | .text _ => 0
  | .elem t _ cs => (if t = "li".data then 1 else 0) + countLiF cs
termination_by structural n => n
def countLiF : List Node → Nat
  | [] => 0
  | n :: r => countLiN n + countLiF r
termination_by structural l => l
end

mutual
/-- What remains, inside a generated paragraph, of a list item's content:
text survives; an inner `li` is an emptied husk; an inner list becomes one
empty `p` per `li` descendant; other elements are kept and recursed into. -/
def stripInnerN : Node → List Node
  | .text s => [.text s]
  | .elem t a cs =>
    if t = "li".data then [.elem t a []]
    else if t = "ul".data ∨ t = "ol".data then
      List.replicate (countLiF cs) (.elem "p".data [] [])
    else [.elem t a (stripInnerF cs)]
termination_by structural n => n
def stripInnerF : List Node → List Node
  | [] => []
  | n :: r => stripInnerN n ++ stripInnerF r
termination_by structural l => l
end

mutual
/-- The generated paragraphs for all `li` descendants of a maximal list's
children, in pre-order (one `p` per item, holding the item's content). -/
def liPsN : Node → List Node
  | .text _ => []
  | .elem t _ cs =>
    (if t = "li".data then [.elem "p".data [] (stripInnerF cs)] else []) ++ liPsF cs
termination_by structural n => n
def liPsF : List Node → List Node
  | [] => []
  | n :: r => liPsN n ++ liPsF r
termination_by structural l => l
end

mutual
/-- First pass over the whole forest: each maximal `ul`/`ol` is replaced by
its generated paragraphs in reverse pre-order. -/
def handleListsN : Node → List Node
  | .text s => [.text s]
  | .elem t a cs =>
    if t = "ul".data ∨ t = "ol".data then (liPsF cs).reverse
    else [.elem t a (handleListsF cs)]
termination_by structural n => n
def handleListsF : List Node → List Node
  | [] => []
  | n :: r => handleListsN n ++ handleListsF r
termination_by structural l => l
end

/-! ### Second pass: tag normalization

The source iterates over a snapshot of every tag in document order.  An
allowed tag keeps only whitelisted attributes; a tag with a replacement is
renamed with all attributes dropped (children untouched here, visited later
in the same snapshot); any other tag is replaced by a fresh `p` whose only
content is the tag's full `get_text()` if that text is non-empty after
stripping, else an empty `p` (its detached descendants are visited later
with no visible effect).  Each decision depends only on the node's own name
and attributes, so the snapshot loop is the following recursion. -/

mutual
def normalizeN : Node → Node
  | .text s => .text s
  | .elem t a cs =>
    match lookup ALLOWED_TAGS t with
    | some wl => .elem t (a.filter (fun kv => wl.contains kv.1)) (normalizeF cs)
    | none =>
      match lookup TAG_REPLACEMENTS t with
      | some t' => .elem t' [] (normalizeF cs)
      | none =>
        if pyStrip (getTextF cs) = [] then .elem "p".data [] []
        else .elem "p".data [] [.text (getTextF cs)]
termination_by structural n => n
def normalizeF : List Node → List Node
  | [] => []
  | n :: r => normalizeN n :: normalizeF r
termination_by structural l => l
end

/-! ### Third pass: `clean_nested_paragraphs`

For a `p` element the source snapshots its *direct* `p` children; each one
that has contents is extracted and its contents are appended at the end of
the parent (a contentless nested `p` is left in place, since the extract
sits inside the loop over its contents).  It then recurses into the
post-hoist children: kept children (in order) followed by the hoisted
contents of each non-empty direct `p` child (in order). -/

/-- A direct child that the hoist removes: a `p` with at least one child. -/
def isNonemptyP : Node → Bool
  | .elem t _ (_ :: _) => t = "p".data
  | _ => false

mutual
def cleanN : Node → Node
  | .text s => .text s
  | .elem t a cs =>
    if t = "p".data then .elem t a (cleanKeepF cs ++ cleanHoistF cs)
    else .elem t a (cleanF cs)
termination_by structural n => n
/-- The hoisted contribution of one direct child. -/
def cleanHoistN : Node → List Node
  | .text _ => []
  | .elem t _ cs =>
    if t = "p".data then (if cs.isEmpty then [] else cleanF cs) else []
termination_by structural n => n
/-- The children kept in place (everything except non-empty direct `p`s). -/
def cleanKeepF : List Node → List Node
  | [] => []
  | n :: r => (if isNonemptyP n then [] else [cleanN n]) ++ cleanKeepF r
termination_by structural l => l
def cleanHoistF : List Node → List Node
  | [] => []
  | n :: r => cleanHoistN n ++ cleanHoistF r
termination_by structural l => l
def cleanF : List Node → List Node
  | [] => []
  | n :: r => cleanN n :: cleanF r
termination_by structural l => l
end

/-! ### Fourth pass: emphasis/strong marker fix

Snapshot of all `em`/`strong` tags in document order.  A tag whose
(possibly chained) `.string` is truthy and matches the marker pattern is
renamed and its contents replaced by the stripped string (which detaches
any chained descendants before their turn); otherwise the tag is untouched
and its children are visited later in the snapshot. -/

mutual
def fixFormatN : Node → Node
  | .text s => .text s
  | .elem t a cs =>
    if t = "em".data ∨ t = "strong".data then
      match stringOfF cs with
      | some s =>
        if s ≠ [] then
          if t = "em".data ∧ pyStarts "**".data s ∧ pyEnds "**".data s then
            .elem "strong".data a [.text (pyDropRight 2 (pyDrop 2 s))]
          else if t = "strong".data ∧ pyStarts "*".data s ∧ pyEnds "*".data s ∧
              ¬ pyStarts "**".data s then
            .elem "em".data a [.text (pyDropRight 1 (pyDrop 1 s))]
          else .elem t a (fixFormatF cs)
        else .elem t a (fixFormatF cs)
      | none => .elem t a (fixFormatF cs)
    else .elem t a (fixFormatF cs)
termination_by structural n => n
def fixFormatF : List Node → List Node
  | [] => []
  | n :: r => fixFormatN n :: fixFormatF r
termination_by structural l => l
end

/-! ### Fifth pass: empty-paragraph pruning and whitespace normalization

Snapshot of all `p` tags in document order (parents before children).  A
`p` whose stripped `get_text()` is empty is decomposed; otherwise, if its
(possibly chained) `.string` is truthy, its contents are replaced by the
whitespace-collapsed string (detaching any chained descendants); otherwise
its children are visited later in the snapshot. -/

mutual
def pruneN : Node → Option Node
  | .text s => some (.text s)
  | .elem t a cs =>
    if t = "p".data then
      if pyStrip (getTextF cs) = [] then none
      else
        match stringOfF cs with
        | some (c :: s) => some (.elem t a [.text (pyCollapse (c :: s))])
        | _ => some (.elem t a (pruneF cs))
    else some (.elem t a (pruneF cs))
termination_by structural n => n
def pruneF : List Node → List Node
  | [] => []
  | n :: r =>
    match pruneN n with
    | some n' => n' :: pruneF r
    | none => pruneF r
termination_by structural l => l
end

/-! ### Sixth pass: table structure

Snapshot of all tables in document order.  A table with a `thead` or
`tbody` descendant (`table.find`) is skipped.  Otherwise, if it has any
`tr` descendant: every `td` descendant of the first `tr` (document order)
is renamed `th`; the first `tr` is extracted and wrapped in a `thead`
inserted as the table's first child; then `table.find_all('tr')` is
queried *again* — which still contains the first row, now inside the new
`thead` — and every row in it is extracted in order and appended to a
`tbody` placed at the end.  Net effect: an *empty* `thead`, the non-row
content in place, and a `tbody` holding every `tr` of the subtree in
pre-order, each emptied of its own nested `tr`s (extracting a row pulls it
out of any previously moved ancestor row).

A table nested inside a rewritten table has lost all its rows to the outer
`tbody` by the time of its own visit, so its own visit is a no-op; hence
the recursion needs not re-enter the rewritten pieces (they contain no
`tr`, and the pass is the identity on `tr`-free forests). -/

mutual
/-- `find(name)` restricted to elements: is an element named `t` in the
subtree below / the forest, at any depth? -/
def hasElemN (t : Str) : Node → Bool
  | .text _ => false
  | .elem t' _ cs => decide (t' = t) || hasElemF t cs
termination_by structural n => n
def hasElemF (t : Str) : List Node → Bool
  | [] => false
  | n :: r => hasElemN t n || hasElemF t r
termination_by structural l => l
end

mutual
/-- All `tr` elements in pre-order (like `find_all('tr')`). -/
def trsN : Node → List Node
  | .text _ => []
  | .elem t a cs => (if t = "tr".data then [.elem t a cs] else []) ++ trsF cs
termination_by structural n => n
def trsF : List Node → List Node
  | [] => []
  | n :: r => trsN n ++ trsF r
termination_by structural l => l
end

mutual
/-- Rename every `td` element to `th` (any depth). -/
def tdToThN : Node → Node
  | .text s => .text s
  | .elem t a cs => .elem (if t = "td".data then "th".data else t) a (tdToThF cs)
termination_by structural n => n
def tdToThF : List Node → List Node
  | [] => []
  | n :: r => tdToThN n :: tdToThF r
termination_by structural l => l
end

mutual
/-- Apply the `td`→`th` renaming inside the first `tr` (pre-order) of the
forest, leaving everything else unchanged. -/
def renameFirstTrN : Node → Node
  | .text s => .text s
  | .elem t a cs => .elem t a (renameFirstTrF cs)
termination_by structural n => n
def renameFirstTrF : List Node → List Node
  | [] => []
  | .text s :: r => .text s :: renameFirstTrF r
  | .elem t a cs :: r =>
    if t = "tr".data then .elem t a (tdToThF cs) :: r
    else if hasElemF "tr".data cs then renameFirstTrN (.elem t a cs) :: r
    else .elem t a cs :: renameFirstTrF r
termination_by structural l => l
end

mutual
/-- Remove every `tr` element (with its whole subtree) at any depth. -/
def removeTrsN : Node → List Node
  | .text s => [.text s]
  | .elem t a cs => if t = "tr".data then [] else [.elem t a (removeTrsF cs)]
termination_by structural n => n
def removeTrsF : List Node → List Node
  | [] => []
  | n :: r => removeTrsN n ++ removeTrsF r
termination_by structural l => l
end

/-- A row as it ends up in the `tbody`: emptied of its own nested rows. -/
def huskTr : Node → Node
  | .text s => .text s
  | .elem t a cs => .elem t a (removeTrsF cs)

mutual
def fixTablesN : Node → Node
  | .text s => .text s
  | .elem t a cs =>
    if t = "table".data ∧ ¬ hasElemF "thead".data cs ∧ ¬ hasElemF "tbody".data cs ∧
        hasElemF "tr".data cs then
      .elem t a (.elem "thead".data [] [] ::
        (removeTrsF (renameFirstTrF cs) ++
          [.elem "tbody".data [] ((trsF (renameFirstTrF cs)).map huskTr)]))
    else .elem t a (fixTablesF cs)
termination_by structural n => n
def fixTablesF : List Node → List Node
  | [] => []
  | n :: r => fixTablesN n :: fixTablesF r
termination_by structural l => l
end

/-- `filter_html`, at the tree level: the six passes in order.  Parsing the
input string and serializing the result are the external collaborators. -/
def filter_html (doc : List Node) : List Node :=
  fixTablesF (pruneF (fixFormatF (cleanF (normalizeF (handleListsF doc)))))

/-! ### `force_utf8_and_sanitize` (src/utf8_sanitizer.py)

The exact chain of `str.replace` calls from the source, in order.  Note two
quirks of the source text itself: the "smart quote" replacements on line 21
replace a straight quote by itself, and line 22 lexes as a single call
`content.replace(", \x27\x27\x27).replace(", "\x27")` because three
consecutive quotes open a triple-quoted string. -/

def force_utf8_and_sanitize (content : Str) (is_html : Bool) : Str :=
  if is_html then
    let c := pyReplace content "\xa0".data " ".data
    let c := pyReplace c "\"".data "\"".data
    let c := pyReplace c "\"".data "\"".data
    let c := pyReplace c ", \x27\x27\x27).replace(".data "\x27".data
    let c := pyReplace c "–".data "-".data
    let c := pyReplace c "—".data "-".data
    let c := pyReplace c "…".data "...".data
    let c := pyReplace c "�".data "\"".data
    let c := pyReplace c "â€œ".data "\"".data
    let c := pyReplace c "â€".data "\"".data
    let c := pyReplace c "â€™".data "\x27".data
    let c := pyReplace c "â€˜".data "\x27".data
    let c := pyReplace c "â€\"".data "-".data
    let c := pyReplace c "â€\"".data "-".data
    let c := pyReplace c "â€¦".data "...".data
    let c := pyReplace c "“".data "\"".data
    let c := pyReplace c "”".data "\"".data
    let c := pyReplace c "‘".data "\x27".data
    let c := pyReplace c "’".data "\x27".data
    let c := pyReplace c "–".data "-".data
    let c := pyReplace c "—".data "-".data
    let c := pyReplace c "…".data "...".data
    let c := pyReplace c "*".data "".data
    c
  else content

/-! ### Predicates for the specification's properties -/

mutual
/-- Vocabulary closure (spec §3/§8): every element's tag is a key of
`ALLOWED_TAGS` and all its attribute names are in that tag's whitelist. -/
def closedN : Node → Bool
  | .text _ => true
  | .elem t a cs =>
    match lookup ALLOWED_TAGS t with
    | some wl => a.all (fun kv => wl.contains kv.1) && closedF cs
    | none => false
termination_by structural n => n
def closedF : List Node → Bool
  | [] => true
  | n :: r => closedN n && closedF r
termination_by structural l => l
end

mutual
/-- No `p` element has a `p` element as a descendant. -/
def noNestedPN : Node → Bool
  | .text _ => true
  | .elem t _ cs =>
    (if t = "p".data then ! hasElemF "p".data cs else true) && noNestedPF cs
termination_by structural n => n
def noNestedPF : List Node → Bool
  | [] => true
  | n :: r => noNestedPN n && noNestedPF r
termination_by structural l => l
end

/-- The subtree strictly below this node contains no `p` element. -/
def pFreeInside : Node → Bool
  | .text _ => true
  | .elem _ _ cs => ! hasElemF "p".data cs

mutual
/-- No `p` element has a `p` descendant at depth ≥ 2 (i.e. every `p`
descendant of a `p` is one of its direct children). -/
def shallowPN : Node → Bool
  | .text _ => true
  | .elem t _ cs =>
    (if t = "p".data then cs.all pFreeInside else true) && shallowPF cs
termination_by structural n => n
def shallowPF : List Node → Bool
  | [] => true
  | n :: r => shallowPN n && shallowPF r
termination_by structural l => l
end

/-- A direct child admissible below a `p` after flattening: text, an empty
`p`, or a non-`p` element with no `p` anywhere inside. -/
def dirOk : Node → Bool
  | .text _ => true
  | .elem t _ cs => if t = "p".data then cs.isEmpty else ! hasElemF "p".data cs

mutual
/-- Intermediate invariant after the paragraph-flattening pass: every `p`
element has only `dirOk` direct children (so its only `p` descendants are
empty direct children, which the pruning pass then removes). -/
def edpN : Node → Bool
  | .text _ => true
  | .elem t _ cs => (if t = "p".data then cs.all dirOk else true) && edpF cs
termination_by structural n => n
def edpF : List Node → Bool
  | [] => true
  | n :: r => edpN n && edpF r
termination_by structural l => l
end

mutual
/-- Some `p` element whose whole text strips to nothing. -/
def hasWsPN : Node → Bool
  | .text _ => false
  | .elem t _ cs =>
    (decide (t = "p".data) && decide (pyStrip (getTextF cs) = [])) || hasWsPF cs
termination_by structural n => n
def hasWsPF : List Node → Bool
  | [] => false
  | n :: r => hasWsPN n || hasWsPF r
termination_by structural l => l
end

mutual
/-- Every `p` element has text that does not strip to nothing. -/
def sigPN : Node → Bool
  | .text _ => true
  | .elem t _ cs =>
    (if t = "p".data then ! decide (pyStrip (getTextF cs) = []) else true) && sigPF cs
termination_by structural n => n
def sigPF : List Node → Bool
  | [] => true
  | n :: r => sigPN n && sigPF r
termination_by structural l => l
end

mutual
/-- No `p` element has a `tr` descendant (under this condition the table
pass never extracts a row out of a paragraph). -/
def noTrUnderPN : Node → Bool
  | .text _ => true
  | .elem t _ cs =>
    (if t = "p".data then ! hasElemF "tr".data cs else true) && noTrUnderPF cs
termination_by structural n => n
def noTrUnderPF : List Node → Bool
  | [] => true
  | n :: r => noTrUnderPN n && noTrUnderPF r
termination_by structural l => l
end

/-- The characters a transformation is accountable for: the filter keeps a
character iff `keep` does.  Instantiated with "non-whitespace" and with
"non-whitespace and not an asterisk" below. -/
def sigStr (keep : Char → Bool) (s : Str) : Multiset Char := ↑(s.filter keep)

mutual
/-- The multiset of kept characters of all text nodes of a subtree/forest. -/
def sigN (keep : Char → Bool) : Node → Multiset Char
  | .text s => sigStr keep s
  | .elem _ _ cs => sigF keep cs
termination_by structural n => n
def sigF (keep : Char → Bool) : List Node → Multiset Char
  | [] => 0
  | n :: r => sigN keep n + sigF keep r
termination_by structural l => l
end

/-- Keep: printable content characters for claim C2 (not whitespace and not
an emphasis marker). -/
def keepC2 (c : Char) : Bool := ! pyWs c && ! (c == '*')

/-- Keep: non-whitespace (claim C7). -/
def keepNW (c : Char) : Bool := ! pyWs c

mutual
/-- Characters of text nodes that are not inside any `li` element. -/
def strayN (keep : Char → Bool) : Node → Multiset Char
  | .text s => sigStr keep s
  | .elem t _ cs => if t = "li".data then 0 else strayF keep cs
termination_by structural n => n
def strayF (keep : Char → Bool) : List Node → Multiset Char
  | [] => 0
  | n :: r => strayN keep n + strayF keep r
termination_by structural l => l
end

mutual
/-- Every `ul`/`ol` element in the forest carries no significant text
outside of its `li` items (such "stray" list text is destroyed by the
first pass, which claim C2's counterexample exhibits). -/
def goodListsN : Node → Bool
  | .text _ => true
  | .elem t _ cs =>
    (if t = "ul".data ∨ t = "ol".data then decide (strayF keepC2 cs = 0) else true) &&
      goodListsF cs
termination_by structural n => n
def goodListsF : List Node → Bool
  | [] => true
  | n :: r => goodListsN n && goodListsF r
termination_by structural l => l
end

/-- Top-level element names of a forest (used to separate unequal trees). -/
def topTags (l : List Node) : List Str :=
  l.filterMap (fun n => match n with | .elem t _ _ => some t | .text _ => none)

/-- The pipeline up to (excluding) the table pass. -/
def preTables (doc : List Node) : List Node :=
  pruneF (fixFormatF (cleanF (normalizeF (handleListsF doc))))

/-- An `em` whose (chained) string is truthy and carries strong markers:
the fourth pass rewrites it. -/
def emBad (cs : List Node) : Bool :=
  match stringOfF cs with
  | some s => ! s.isEmpty && pyStarts "**".data s && pyEnds "**".data s
  | none => false

/-- A `strong` whose (chained) string is truthy and carries em markers. -/
def strongBad (cs : List Node) : Bool :=
  match stringOfF cs with
  | some s => ! s.isEmpty && pyStarts "*".data s && pyEnds "*".data s &&
      ! pyStarts "**".data s
  | none => false

/-- The canonical-shape condition on a `p` element\x27s children: no
non-empty direct `p` child, significant text, and a single-text paragraph
already collapsed (otherwise no truthy chained string). -/
def canonP (cs : List Node) : Bool :=
  cs.all (fun c => ! isNonemptyP c) &&
  ! decide (pyStrip (getTextF cs) = []) &&
  (match cs with
   | [.text s] => decide (pyCollapse s = s)
   | _ => ! stringTruthy (stringOfF cs))

mutual
/-- A tree on which every pass of `filter_html` is the identity: vocabulary
closed; paragraphs have no non-empty direct `p` child, have significant
text, and single-text paragraphs are already collapsed; `em`/`strong` carry
no stray markers; tables either have a `thead`/`tbody` or no rows.  The
allowed vocabulary contains no list tags, so the first pass is vacuous. -/
def canonicalN : Node → Bool
  | .text _ => true
  | .elem t a cs =>
    (match lookup ALLOWED_TAGS t with
     | some wl => a.all (fun kv => wl.contains kv.1)
     | none => false) &&
    (if t = "p".data then canonP cs else true) &&
    (if t = "em".data then ! emBad cs else true) &&
    (if t = "strong".data then ! strongBad cs else true) &&
    (if t = "table".data then
       hasElemF "thead".data cs || hasElemF "tbody".data cs ||
         ! hasElemF "tr".data cs
     else true) &&
    canonicalF cs
termination_by structural n => n
def canonicalF : List Node → Bool
  | [] => true
  | n :: r => canonicalN n && canonicalF r
termination_by structural l => l
end

/-! ### Concrete inputs used by the counterexamples and scenario checks -/

/-- `<ul><li>One</li><li>Two</li></ul>` (spec scenario for C5). -/
def docListOneTwo : List Node :=
  [.elem "ul".data [] [.elem "li".data [] [.text "One".data],
    .elem "li".data [] [.text "Two".data]]]

/-- `<table><tr><td>A</td></tr><tr><td>B</td></tr></table>` (C4 scenario). -/
def docTableAB : List Node :=
  [.elem "table".data [] [
    .elem "tr".data [] [.elem "td".data [] [.text "A".data]],
    .elem "tr".data [] [.elem "td".data [] [.text "B".data]]]]

/-- `<ul>stray<li>x</li></ul>`: a list with significant text outside its
items (C2 counterexample). -/
def docStrayList : List Node :=
  [.elem "ul".data [] [.text "stray".data, .elem "li".data [] [.text "x".data]]]

/-- `<p>hello<blockquote><p>x</p></blockquote></p>`: a paragraph nested at
depth two below a paragraph (C3 counterexample). -/
def docDeepP : List Node :=
  [.elem "p".data [] [.text "hello".data,
    .elem "blockquote".data [] [.elem "p".data [] [.text "x".data]]]]

/-- `<em>***x***</em>`: emphasis whose marker fix is not idempotent
(C6 counterexample). -/
def docTripleStar : List Node := [.elem "em".data [] [.text "***x***".data]]

/-- A row nested inside a paragraph inside a table cell: the table pass
extracts it, leaving a whitespace-only paragraph (C7 counterexample). -/
def docTrInP : List Node :=
  [.elem "table".data [] [.elem "tr".data [] [.elem "td".data [] [
    .elem "p".data [] [.text " ".data,
      .elem "tr".data [] [.elem "td".data [] [.text "y".data]]]]]]]

mutual
/-- Mutual induction scaffold for `Node` / forests, used by every
structural proof below (stated as a pair of proof-producing functions
because the nested inductive's automatic recursor is unwieldy). -/
def nodeInd (P : Node → Prop) (Q : List Node → Prop)
    (htext : ∀ s, P (.text s))
    (helem : ∀ t a cs, Q cs → P (.elem t a cs))
    (hnil : Q []) (hcons : ∀ n r, P n → Q r → Q (n :: r)) : ∀ n : Node, P n
  | .text s => htext s
  | .elem t a cs => helem t a cs (forestInd P Q htext helem hnil hcons cs)
termination_by structural n => n
def forestInd (P : Node → Prop) (Q : List Node → Prop)
    (htext : ∀ s, P (.text s))
    (helem : ∀ t a cs, Q cs → P (.elem t a cs))
    (hnil : Q []) (hcons : ∀ n r, P n → Q r → Q (n :: r)) : ∀ l : List Node, Q l
  | [] => hnil
  | n :: r =>
    hcons n r (nodeInd P Q htext helem hnil hcons n)
      (forestInd P Q htext helem hnil hcons r)
termination_by structural l => l
end

/-! ## Theorems -/

/-- Helper for C10: replacing a one-character pattern by the empty string
removes every occurrence of that character. -/
theorem pyReplace_single_not_mem (c : Char) : ∀ l : Str, c ∉ pyReplace l [c] [] := by
  intro l
  induction l with
  | nil => simp [pyReplace]
  | cons x r ih =>
    rw [pyReplace, dif_neg (show ¬([c] = ([] : Str)) by simp)]
    by_cases hx : c = x
    · subst hx
      have hpre : List.isPrefixOf [c] (c :: r) = true := by
        simp [List.isPrefixOf]
      rw [hpre]
      simpa using ih
    · have hpre : List.isPrefixOf [c] (x :: r) = false := by
        simp only [List.isPrefixOf, List.isPrefixOf_nil_left, Bool.and_true]
        exact beq_eq_false_iff_ne.mpr hx
      rw [hpre]
      simp only [Bool.false_eq_true, if_false, List.mem_cons, not_or]
      exact ⟨hx, ih⟩

/-- C10: for every input string, HTML-mode sanitization deletes every
asterisk (the final `replace('*', '')` runs after every other replacement,
none of which introduces an asterisk), while non-HTML mode returns the
input unchanged. -/
theorem c10_asterisk_removal (s : Str) :
    '*' ∉ force_utf8_and_sanitize s true ∧ force_utf8_and_sanitize s false = s := by
  refine ⟨?_, rfl⟩
  simp only [force_utf8_and_sanitize, if_pos]
  exact pyReplace_single_not_mem '*' _

/-- C5: the list pass is a genuine code bug.  The source inserts each
item's paragraph with `ul_tag.insert_after(new_p)`, so successive items
land in reverse document order: `<ul><li>One</li><li>Two</li></ul>`
produces `<p>Two</p><p>One</p>`, not the claimed `<p>One</p><p>Two</p>`.
This theorem evaluates the rewriter at the failing input. -/
theorem c5_list_flattening_reversed :
    filter_html docListOneTwo =
      [Node.elem "p".data [] [Node.text "Two".data],
       Node.elem "p".data [] [Node.text "One".data]] := rfl

/-- C4: the table pass is a genuine code bug.  After wrapping the first
row in a new `thead`, the source re-queries `table.find_all('tr')`, which
finds the first row again inside the `thead`; every row (the first one
included) is then extracted into the `tbody`.  The output for the claimed
scenario therefore has an empty `thead` and both rows (the first with `th`
cells) inside `tbody`, not the claimed shape.  This theorem evaluates the
rewriter at the failing input. -/
theorem c4_table_shape_bug :
    filter_html docTableAB =
      [Node.elem "table".data [] [Node.elem "thead".data [] [],
        Node.elem "tbody".data [] [
          Node.elem "tr".data [] [Node.elem "th".data [] [Node.text "A".data]],
          Node.elem "tr".data [] [Node.elem "td".data [] [Node.text "B".data]]]]] := rfl

/-- C2 counterexample: significant text placed directly inside a list but
outside every `li` is destroyed when the first pass decomposes the list:
for `<ul>stray<li>x</li></ul>` the input's text contains "stray" but the
output's whole text is "x". -/
theorem c2_counterexample :
    ("stray".data <:+: getTextF docStrayList) ∧
      ¬ ("stray".data <:+: getTextF (filter_html docStrayList)) := by
  constructor
  · decide
  · decide

/-- C3 counterexample: a `p` descendant separated from its `p` ancestor by
another element survives the whole rewrite when the ancestor also has other
content: `<p>hello<blockquote><p>x</p></blockquote></p>` still contains a
`p` inside a `p` after `filter_html`. -/
theorem c3_counterexample : noNestedPF (filter_html docDeepP) = false := rfl

/-- C6 counterexample: `filter_html` is not idempotent.  `<em>***x***</em>`
becomes `<strong>*x*</strong>` on the first run and `<em>x</em>` on the
second. -/
theorem c6_counterexample :
    filter_html (filter_html docTripleStar) ≠ filter_html docTripleStar := by
  intro h
  exact absurd (congrArg topTags h) (by decide)

/-- C7 counterexample: a whitespace-only `p` can survive in the output.
The input has no whitespace-only paragraph, but the table pass extracts a
row nested inside a paragraph of a cell, leaving that paragraph with only
a space. -/
theorem c7_counterexample :
    hasWsPF docTrInP = false ∧ hasWsPF (filter_html docTrInP) = true := ⟨rfl, rfl⟩

/-- C9 counterexample: a list with no items is not literally a no-op for
the list pass — the pass still removes the (empty) list element. -/
theorem c9_counterexample :
    handleListsF [Node.elem "ul".data [] []] = [] ∧
      [Node.elem "ul".data [] []] ≠ ([] : List Node) := ⟨rfl, by simp⟩

/-- C9 (amended): the rewriter is total (every pass is a total function on
trees, mirroring a source with no raising operation on well-formed trees);
a table with no row descendant is left untouched by the table pass (up to
recursion into its children); and a list with no reachable items inserts no
paragraphs — the list element itself is still removed without error. -/
theorem c9_totality_noop :
    (∀ a cs, hasElemF "tr".data cs = false →
      fixTablesN (.elem "table".data a cs) = .elem "table".data a (fixTablesF cs)) ∧
    (∀ a cs r, liPsF cs = [] →
      handleListsF (.elem "ul".data a cs :: r) = handleListsF r) := by
  constructor
  · intro a cs h
    rw [fixTablesN]
    simp [h]
  · intro a cs r h
    rw [handleListsF, handleListsN]
    simp [h]

/-- C9 witness: the amended statement at a concrete rowless table and a
concrete itemless list. -/
theorem c9_totality_noop_witness :
    fixTablesN (.elem "table".data [] [.text "x".data]) =
      .elem "table".data [] (fixTablesF [.text "x".data]) ∧
    handleListsF [.elem "ul".data [] [.text "s".data]] = handleListsF [] :=
  ⟨c9_totality_noop.1 [] [.text "x".data] rfl,
   c9_totality_noop.2 [] [.text "s".data] [] rfl⟩

/-- C8: the emphasis corrector, per element: an `em` whose content is a
single text node starting and ending with `**` becomes a `strong` with the
two leading and two trailing characters sliced off; a `strong` whose single
text starts and ends with `*` but not with `**` becomes an `em` with one
character sliced off each side; an `em`/`strong` with no content, or with
more than one child (mixed content), keeps its name and attributes. -/
theorem c8_emphasis_cases :
    (∀ a s, pyStarts "**".data s = true → pyEnds "**".data s = true →
      fixFormatN (.elem "em".data a [.text s]) =
        .elem "strong".data a [.text (pyDropRight 2 (pyDrop 2 s))]) ∧
    (∀ a s, pyStarts "*".data s = true → pyEnds "*".data s = true →
      pyStarts "**".data s = false →
      fixFormatN (.elem "strong".data a [.text s]) =
        .elem "em".data a [.text (pyDropRight 1 (pyDrop 1 s))]) ∧
    (∀ t a, t = "em".data ∨ t = "strong".data →
      fixFormatN (.elem t a []) = .elem t a []) ∧
    (∀ t a c₁ c₂ cs, t = "em".data ∨ t = "strong".data →
      fixFormatN (.elem t a (c₁ :: c₂ :: cs)) =
        .elem t a (fixFormatF (c₁ :: c₂ :: cs))) := by
  refine ⟨?_, ?_, ?_, ?_⟩
  · intro a s h1 h2
    have hs : s ≠ [] := by
      intro he; subst he; simp [pyStarts, List.isPrefixOf] at h1
    rw [fixFormatN]
    simp [stringOfF, stringOfN, hs, h1, h2]
  · intro a s h1 h2 h3
    have hs : s ≠ [] := by
      intro he; subst he; simp [pyStarts, List.isPrefixOf] at h1
    rw [fixFormatN]
    simp [stringOfF, stringOfN, hs, h1, h2, h3]
  · intro t a ht
    rw [fixFormatN]
    have : stringOfF ([] : List Node) = none := rfl
    cases ht with
    | inl h => subst h; simp [this, fixFormatF]
    | inr h => subst h; simp [this, fixFormatF]
  · intro t a c₁ c₂ cs ht
    rw [fixFormatN]
    have : stringOfF (c₁ :: c₂ :: cs) = none := rfl
    cases ht with
    | inl h => subst h; simp [this]
    | inr h => subst h; simp [this]

/-- C8 witness: the four cases at concrete elements. -/
theorem c8_emphasis_cases_witness :
    fixFormatN (.elem "em".data [] [.text "**b**".data]) =
      .elem "strong".data [] [.text (pyDropRight 2 (pyDrop 2 "**b**".data))] ∧
    fixFormatN (.elem "strong".data [] [.text "*i*".data]) =
      .elem "em".data [] [.text (pyDropRight 1 (pyDrop 1 "*i*".data))] ∧
    fixFormatN (.elem "em".data [] []) = .elem "em".data [] [] ∧
    fixFormatN (.elem "strong".data []
        [.text "a".data, .elem "em".data [] [.text "b".data]]) =
      .elem "strong".data []
        (fixFormatF [.text "a".data, .elem "em".data [] [.text "b".data]]) :=
  ⟨c8_emphasis_cases.1 [] "**b**".data rfl rfl,
   c8_emphasis_cases.2.1 [] "*i*".data rfl rfl rfl,
   c8_emphasis_cases.2.2.1 "em".data [] (Or.inl rfl),
   c8_emphasis_cases.2.2.2 "strong".data [] (.text "a".data)
     (.elem "em".data [] [.text "b".data]) [] (Or.inr rfl)⟩

/-! ### C1: vocabulary closure -/

theorem closedF_append (a b : List Node) :
    closedF (a ++ b) = (closedF a && closedF b) := by
  induction a with
  | nil => simp [closedF]
  | cons n r ih => simp [closedF, ih, Bool.and_assoc]

theorem filter_all_self {α : Type} (p : α → Bool) (l : List α) :
    (l.filter p).all p = true := by
  induction l with
  | nil => rfl
  | cons x r ih =>
    by_cases h : p x
    · simp [List.filter_cons, h, ih]
    · simp [List.filter_cons, h, ih]

theorem lookup_mem {α : Type} (L : List (Str × α)) (t : Str) (v : α)
    (h : lookup L t = some v) : ∃ k, (k, v) ∈ L := by
  induction L with
  | nil => cases h
  | cons p r ih =>
    obtain ⟨k0, v0⟩ := p
    simp only [lookup] at h
    split at h
    · exact ⟨k0, by injection h with h; subst h; exact List.mem_cons_self _ _⟩
    · obtain ⟨k, hk⟩ := ih h
      exact ⟨k, List.mem_cons_of_mem _ hk⟩

/-- Every replacement target in the policy is itself an allowed tag. -/
theorem repl_target_allowed (t t' : Str) (h : lookup TAG_REPLACEMENTS t = some t') :
    (lookup ALLOWED_TAGS t').isSome = true := by
  obtain ⟨k, hk⟩ := lookup_mem TAG_REPLACEMENTS t t' h
  have hall : ∀ p ∈ TAG_REPLACEMENTS, (lookup ALLOWED_TAGS p.2).isSome = true := by
    decide
  exact hall (k, t') hk

/-- After the tag-normalization pass every element is vocabulary closed. -/
theorem closed_normalize : ∀ f : List Node, closedF (normalizeF f) = true :=
  forestInd (fun n => closedN (normalizeN n) = true)
    (fun l => closedF (normalizeF l) = true)
    (fun _ => rfl)
    (fun t a cs ih => by
      simp only [normalizeN]
      cases hA : lookup ALLOWED_TAGS t with
      | some wl =>
        simp only [hA, closedN, filter_all_self, ih, Bool.and_self]
      | none =>
        simp only [hA]
        cases hR : lookup TAG_REPLACEMENTS t with
        | some t' =>
          simp only [hR]
          obtain ⟨wl', hw⟩ := Option.isSome_iff_exists.mp (repl_target_allowed t t' hR)
          simp only [closedN, hw, List.all_nil, ih, Bool.and_self]
        | none =>
          simp only [hR]
          split
          · rfl
          · rfl)
    rfl
    (fun n r ihn ihr => by
      simp only [normalizeF, closedF, ihn, ihr, Bool.and_self])

/-- Unfolding of `closedN` on an element (definitional). -/
theorem closedN_elem (t : Str) (a : List (Str × Str)) (cs : List Node) :
    closedN (.elem t a cs) =
      (match lookup ALLOWED_TAGS t with
       | some wl => (a.all fun kv => wl.contains kv.1) && closedF cs
       | none => false) := rfl

/-- A vocabulary-closed element with tag `t` and attributes `a`, given any
whitelist fact, splits into its attribute and children parts. -/
theorem closedN_elem_split (t : Str) (a : List (Str × Str)) (cs : List Node)
    (wl : List Str) (hA : lookup ALLOWED_TAGS t = some wl)
    (h : closedN (.elem t a cs) = true) :
    (a.all fun kv => wl.contains kv.1) = true ∧ closedF cs = true := by
  rw [closedN_elem, hA] at h
  exact Bool.and_eq_true_iff.mp h

theorem closedN_elem_build (t : Str) (a : List (Str × Str)) (cs : List Node)
    (wl : List Str) (hA : lookup ALLOWED_TAGS t = some wl)
    (ha : (a.all fun kv => wl.contains kv.1) = true) (hcs : closedF cs = true) :
    closedN (.elem t a cs) = true := by
  rw [closedN_elem, hA]
  show ((a.all fun kv => wl.contains kv.1) && closedF cs) = true
  rw [ha, hcs]
  rfl

theorem closedF_cons (n : Node) (r : List Node) :
    closedF (n :: r) = (closedN n && closedF r) := rfl

/-- A closed element has an allowed tag. -/
theorem closed_elem_isSome (t : Str) (a : List (Str × Str)) (cs : List Node)
    (h : closedN (.elem t a cs) = true) :
    ∃ wl, lookup ALLOWED_TAGS t = some wl := by
  rw [closedN_elem] at h
  cases hA : lookup ALLOWED_TAGS t with
  | some wl => exact ⟨wl, rfl⟩
  | none => rw [hA] at h; cases h

theorem closed_clean_parts : ∀ l : List Node,
    (closedF l = true → closedF (cleanF l) = true) ∧
    (closedF l = true → closedF (cleanKeepF l) = true) ∧
    (closedF l = true → closedF (cleanHoistF l) = true) := by
  refine forestInd
    (fun n => (closedN n = true → closedN (cleanN n) = true) ∧
      (closedN n = true → closedF (cleanHoistN n) = true))
    (fun l => (closedF l = true → closedF (cleanF l) = true) ∧
      (closedF l = true → closedF (cleanKeepF l) = true) ∧
      (closedF l = true → closedF (cleanHoistF l) = true))
    (fun _ => ⟨fun _ => rfl, fun _ => rfl⟩) ?_
    ⟨fun _ => rfl, fun _ => rfl, fun _ => rfl⟩ ?_
  · intro t a cs ih
    constructor
    · intro hc
      obtain ⟨wl, hA⟩ := closed_elem_isSome t a cs hc
      obtain ⟨ha, hcs⟩ := closedN_elem_split t a cs wl hA hc
      simp only [cleanN]
      split
      · refine closedN_elem_build t a _ wl hA ha ?_
        rw [closedF_append]
        simp [ih.2.1 hcs, ih.2.2 hcs]
      · exact closedN_elem_build t a _ wl hA ha (ih.1 hcs)
    · intro hc
      obtain ⟨wl, hA⟩ := closed_elem_isSome t a cs hc
      obtain ⟨ha, hcs⟩ := closedN_elem_split t a cs wl hA hc
      simp only [cleanHoistN]
      split
      · split
        · rfl
        · exact ih.1 hcs
      · rfl
  · intro n r ihn ihr
    refine ⟨?_, ?_, ?_⟩
    · intro h
      rw [closedF_cons, Bool.and_eq_true_iff] at h
      show closedF (cleanN n :: cleanF r) = true
      rw [closedF_cons]
      simp [ihn.1 h.1, ihr.1 h.2]
    · intro h
      rw [closedF_cons, Bool.and_eq_true_iff] at h
      show closedF ((if isNonemptyP n then [] else [cleanN n]) ++ cleanKeepF r) = true
      rw [closedF_append]
      split
      · simp [closedF, ihr.2.1 h.2]
      · rw [closedF_cons]
        simp [closedF, ihn.1 h.1, ihr.2.1 h.2]
    · intro h
      rw [closedF_cons, Bool.and_eq_true_iff] at h
      show closedF (cleanHoistN n ++ cleanHoistF r) = true
      rw [closedF_append]
      simp [ihn.2 h.1, ihr.2.2 h.2]

theorem closed_fixFormat : ∀ l : List Node,
    closedF l = true → closedF (fixFormatF l) = true := by
  refine forestInd
    (fun n => closedN n = true → closedN (fixFormatN n) = true)
    (fun l => closedF l = true → closedF (fixFormatF l) = true)
    (fun _ _ => rfl) ?_ (fun _ => rfl) ?_
  · intro t a cs ih hc
    obtain ⟨wl, hA⟩ := closed_elem_isSome t a cs hc
    obtain ⟨ha, hcs⟩ := closedN_elem_split t a cs wl hA hc
    have hrec : closedN (.elem t a (fixFormatF cs)) = true :=
      closedN_elem_build t a _ wl hA ha (ih hcs)
    have hwl_em : wl = [] → (a.all fun kv => (([] : List Str)).contains kv.1) = true := by
      intro hw; rw [hw] at ha; exact ha
    simp only [fixFormatN]
    split
    · rename_i hts
      cases hS : stringOfF cs with
      | some s =>
        dsimp only
        split
        · split
          · rename_i hcond
            have hem : t = "em".data := hcond.1
            rw [hem] at hA
            have : wl = [] := by
              have : (some wl : Option (List Str)) = some [] := by rw [← hA]; rfl
              injection this
            refine closedN_elem_build _ a _ [] rfl (hwl_em this) rfl
          · split
            · rename_i hcond
              have hst : t = "strong".data := hcond.1
              rw [hst] at hA
              have : wl = [] := by
                have : (some wl : Option (List Str)) = some [] := by rw [← hA]; rfl
                injection this
              refine closedN_elem_build _ a _ [] rfl (hwl_em this) rfl
            · exact hrec
        · exact hrec
      | none => exact hrec
    · exact hrec
  · intro n r ihn ihr h
    rw [closedF_cons, Bool.and_eq_true_iff] at h
    show closedF (fixFormatN n :: fixFormatF r) = true
    rw [closedF_cons]
    simp [ihn h.1, ihr h.2]

theorem closed_prune : ∀ l : List Node,
    closedF l = true → closedF (pruneF l) = true := by
  refine forestInd
    (fun n => ∀ n', pruneN n = some n' → closedN n = true → closedN n' = true)
    (fun l => closedF l = true → closedF (pruneF l) = true)
    ?_ ?_ (fun _ => rfl) ?_
  · intro s n' h _
    injection h with h
    subst h
    rfl
  · intro t a cs ih n' hp hc
    obtain ⟨wl, hA⟩ := closed_elem_isSome t a cs hc
    obtain ⟨ha, hcs⟩ := closedN_elem_split t a cs wl hA hc
    have hrec : closedN (.elem t a (pruneF cs)) = true :=
      closedN_elem_build t a _ wl hA ha (ih hcs)
    simp only [pruneN] at hp
    split at hp
    · split at hp
      · cases hp
      · cases hS : stringOfF cs with
        | some s =>
          rw [hS] at hp
          cases s with
          | nil =>
            dsimp only at hp
            injection hp with hp
            subst hp
            exact hrec
          | cons c s =>
            dsimp only at hp
            injection hp with hp
            subst hp
            exact closedN_elem_build t a _ wl hA ha rfl
        | none =>
          rw [hS] at hp
          dsimp only at hp
          injection hp with hp
          subst hp
          exact hrec
    · injection hp with hp
      subst hp
      exact hrec
  · intro n r ihn ihr h
    rw [closedF_cons, Bool.and_eq_true_iff] at h
    show closedF
      (match pruneN n with
       | some n' => n' :: pruneF r
       | none => pruneF r) = true
    cases hn : pruneN n with
    | none => exact ihr h.2
    | some n' =>
      dsimp only
      rw [closedF_cons]
      simp [ihn n' hn h.1, ihr h.2]

theorem lookup_unique {α : Type} (L : List (Str × α)) (t : Str) (v w : α)
    (h1 : lookup L t = some v) (h2 : lookup L t = some w) : v = w := by
  rw [h1] at h2
  injection h2

theorem closedF_cons_of {n : Node} {r : List Node}
    (h1 : closedN n = true) (h2 : closedF r = true) : closedF (n :: r) = true := by
  rw [closedF_cons, h1, h2]
  rfl

theorem closedF_append_of {a b : List Node}
    (h1 : closedF a = true) (h2 : closedF b = true) : closedF (a ++ b) = true := by
  rw [closedF_append, h1, h2]
  rfl

theorem closed_tdToTh : ∀ l : List Node,
    closedF l = true → closedF (tdToThF l) = true := by
  refine forestInd
    (fun n => closedN n = true → closedN (tdToThN n) = true)
    (fun l => closedF l = true → closedF (tdToThF l) = true)
    (fun _ _ => rfl) ?_ (fun _ => rfl) ?_
  · intro t a cs ih hc
    obtain ⟨wl, hA⟩ := closed_elem_isSome t a cs hc
    obtain ⟨ha, hcs⟩ := closedN_elem_split t a cs wl hA hc
    simp only [tdToThN]
    split
    · rename_i htd
      rw [htd] at hA
      have hwl : wl = [] := lookup_unique ALLOWED_TAGS _ wl [] hA rfl
      subst hwl
      exact closedN_elem_build _ a _ [] rfl ha (ih hcs)
    · exact closedN_elem_build t a _ wl hA ha (ih hcs)
  · intro n r ihn ihr h
    rw [closedF_cons, Bool.and_eq_true_iff] at h
    show closedF (tdToThN n :: tdToThF r) = true
    rw [closedF_cons]
    simp [ihn h.1, ihr h.2]

theorem closed_removeTrs : ∀ l : List Node,
    closedF l = true → closedF (removeTrsF l) = true := by
  refine forestInd
    (fun n => closedN n = true → closedF (removeTrsN n) = true)
    (fun l => closedF l = true → closedF (removeTrsF l) = true)
    (fun _ _ => rfl) ?_ (fun _ => rfl) ?_
  · intro t a cs ih hc
    obtain ⟨wl, hA⟩ := closed_elem_isSome t a cs hc
    obtain ⟨ha, hcs⟩ := closedN_elem_split t a cs wl hA hc
    simp only [removeTrsN]
    split
    · rfl
    · rw [closedF_cons]
      simp [closedF, closedN_elem_build t a _ wl hA ha (ih hcs)]
  · intro n r ihn ihr h
    rw [closedF_cons, Bool.and_eq_true_iff] at h
    show closedF (removeTrsN n ++ removeTrsF r) = true
    rw [closedF_append]
    simp [ihn h.1, ihr h.2]

theorem closed_renameFirstTr : ∀ l : List Node,
    closedF l = true → closedF (renameFirstTrF l) = true := by
  refine forestInd
    (fun n => closedN n = true → closedN (renameFirstTrN n) = true)
    (fun l => closedF l = true → closedF (renameFirstTrF l) = true)
    (fun _ _ => rfl) ?_ (fun _ => rfl) ?_
  · intro t a cs ih hc
    obtain ⟨wl, hA⟩ := closed_elem_isSome t a cs hc
    obtain ⟨ha, hcs⟩ := closedN_elem_split t a cs wl hA hc
    show closedN (.elem t a (renameFirstTrF cs)) = true
    exact closedN_elem_build t a _ wl hA ha (ih hcs)
  · intro n r ihn ihr h
    rw [closedF_cons, Bool.and_eq_true_iff] at h
    cases n with
    | text s =>
      show closedF (.text s :: renameFirstTrF r) = true
      rw [closedF_cons]
      simp [closedN, ihr h.2]
    | elem t a cs =>
      obtain ⟨wl, hA⟩ := closed_elem_isSome t a cs h.1
      obtain ⟨ha, hcs⟩ := closedN_elem_split t a cs wl hA h.1
      show closedF
        (if t = "tr".data then .elem t a (tdToThF cs) :: r
         else if hasElemF "tr".data cs then renameFirstTrN (.elem t a cs) :: r
         else .elem t a cs :: renameFirstTrF r) = true
      split
      · rw [closedF_cons]
        simp [closedN_elem_build t a _ wl hA ha (closed_tdToTh cs hcs), h.2]
      · split
        · rw [closedF_cons]
          simp [ihn h.1, h.2]
        · rw [closedF_cons]
          simp [h.1, ihr h.2]

theorem closed_trs : ∀ l : List Node,
    closedF l = true → closedF (trsF l) = true := by
  refine forestInd
    (fun n => closedN n = true → closedF (trsN n) = true)
    (fun l => closedF l = true → closedF (trsF l) = true)
    (fun _ _ => rfl) ?_ (fun _ => rfl) ?_
  · intro t a cs ih hc
    obtain ⟨wl, hA⟩ := closed_elem_isSome t a cs hc
    obtain ⟨ha, hcs⟩ := closedN_elem_split t a cs wl hA hc
    show closedF ((if t = "tr".data then [Node.elem t a cs] else []) ++ trsF cs) = true
    rw [closedF_append]
    split
    · simp [closedF, hc, ih hcs]
    · simp [closedF, ih hcs]
  · intro n r ihn ihr h
    rw [closedF_cons, Bool.and_eq_true_iff] at h
    show closedF (trsN n ++ trsF r) = true
    rw [closedF_append]
    simp [ihn h.1, ihr h.2]

theorem closed_huskMap : ∀ l : List Node,
    closedF l = true → closedF (l.map huskTr) = true := by
  intro l
  induction l with
  | nil => intro h; exact h
  | cons n r ih =>
    intro h
    rw [closedF_cons, Bool.and_eq_true_iff] at h
    rw [List.map_cons, closedF_cons]
    have hn : closedN (huskTr n) = true := by
      cases n with
      | text s => exact h.1
      | elem t a cs =>
        obtain ⟨wl, hA⟩ := closed_elem_isSome t a cs h.1
        obtain ⟨ha, hcs⟩ := closedN_elem_split t a cs wl hA h.1
        show closedN (.elem t a (removeTrsF cs)) = true
        exact closedN_elem_build t a _ wl hA ha (closed_removeTrs cs hcs)
    simp [hn, ih h.2]

theorem closed_fixTables : ∀ l : List Node,
    closedF l = true → closedF (fixTablesF l) = true := by
  refine forestInd
    (fun n => closedN n = true → closedN (fixTablesN n) = true)
    (fun l => closedF l = true → closedF (fixTablesF l) = true)
    (fun _ _ => rfl) ?_ (fun _ => rfl) ?_
  · intro t a cs ih hc
    obtain ⟨wl, hA⟩ := closed_elem_isSome t a cs hc
    obtain ⟨ha, hcs⟩ := closedN_elem_split t a cs wl hA hc
    simp only [fixTablesN]
    split
    · rename_i hcond
      refine closedN_elem_build t a _ wl hA ha ?_
      have h1 : closedF (removeTrsF (renameFirstTrF cs)) = true :=
        closed_removeTrs _ (closed_renameFirstTr cs hcs)
      have h2 : closedF ((trsF (renameFirstTrF cs)).map huskTr) = true :=
        closed_huskMap _ (closed_trs _ (closed_renameFirstTr cs hcs))
      refine closedF_cons_of rfl (closedF_append_of h1 (closedF_cons_of ?_ rfl))
      exact closedN_elem_build _ [] _ [] rfl rfl h2
    · exact closedN_elem_build t a _ wl hA ha (ih hcs)
  · intro n r ihn ihr h
    rw [closedF_cons, Bool.and_eq_true_iff] at h
    show closedF (fixTablesN n :: fixTablesF r) = true
    rw [closedF_cons]
    simp [ihn h.1, ihr h.2]

/-- C1: vocabulary closure.  For every input tree, every element of
`filter_html`'s output has a tag name in the approved set and only
whitelisted attribute names for that tag (quote: cite/author; table:
border/cellpadding/cellspacing; all others none). -/
theorem c1_vocabulary_closure (doc : List Node) : closedF (filter_html doc) = true :=
  closed_fixTables _ (closed_prune _ (closed_fixFormat _
    ((closed_clean_parts _).1 (closed_normalize (handleListsF doc)))))

/-! ### C3 (amended): flattening of nested paragraphs -/

theorem hasElemN_elem (t t' : Str) (a : List (Str × Str)) (cs : List Node) :
    hasElemN t (.elem t' a cs) = (decide (t' = t) || hasElemF t cs) := rfl

theorem hasElemF_cons (t : Str) (n : Node) (r : List Node) :
    hasElemF t (n :: r) = (hasElemN t n || hasElemF t r) := rfl

theorem hasElemF_append (t : Str) (a b : List Node) :
    hasElemF t (a ++ b) = (hasElemF t a || hasElemF t b) := by
  induction a with
  | nil => rfl
  | cons n r ih => simp [hasElemF_cons, ih, Bool.or_assoc]

theorem edpF_cons (n : Node) (r : List Node) :
    edpF (n :: r) = (edpN n && edpF r) := rfl

theorem edpF_append (a b : List Node) :
    edpF (a ++ b) = (edpF a && edpF b) := by
  induction a with
  | nil => rfl
  | cons n r ih => simp [edpF_cons, ih, Bool.and_assoc]

theorem noNestedPF_cons (n : Node) (r : List Node) :
    noNestedPF (n :: r) = (noNestedPN n && noNestedPF r) := rfl

theorem noNestedPF_append (a b : List Node) :
    noNestedPF (a ++ b) = (noNestedPF a && noNestedPF b) := by
  induction a with
  | nil => rfl
  | cons n r ih => simp [noNestedPF_cons, ih, Bool.and_assoc]

/-- A forest without any `p` element satisfies all paragraph invariants. -/
theorem pfree_parts : ∀ l : List Node, hasElemF "p".data l = false →
    edpF l = true ∧ noNestedPF l = true ∧ l.all dirOk = true := by
  refine forestInd
    (fun n => hasElemN "p".data n = false →
      edpN n = true ∧ noNestedPN n = true ∧ dirOk n = true)
    (fun l => hasElemF "p".data l = false →
      edpF l = true ∧ noNestedPF l = true ∧ l.all dirOk = true)
    ?_ ?_ ?_ ?_
  · intro _ _; exact ⟨rfl, rfl, rfl⟩
  · intro t a cs ih h
    rw [hasElemN_elem, Bool.or_eq_false_iff] at h
    have htp : ¬ t = "p".data := of_decide_eq_false h.1
    obtain ⟨h1, h2, h3⟩ := ih h.2
    refine ⟨?_, ?_, ?_⟩
    · show ((if t = "p".data then cs.all dirOk else true) && edpF cs) = true
      rw [if_neg htp, h1]
      rfl
    · show ((if t = "p".data then ! hasElemF "p".data cs else true) && noNestedPF cs) = true
      rw [if_neg htp, h2]
      rfl
    · show (if t = "p".data then cs.isEmpty else ! hasElemF "p".data cs) = true
      rw [if_neg htp, h.2]
      rfl
  · intro _; exact ⟨rfl, rfl, rfl⟩
  · intro n r ihn ihr h
    rw [hasElemF_cons, Bool.or_eq_false_iff] at h
    obtain ⟨h1, h2, h3⟩ := ihn h.1
    obtain ⟨g1, g2, g3⟩ := ihr h.2
    refine ⟨?_, ?_, ?_⟩
    · rw [edpF_cons, h1, g1]; rfl
    · rw [noNestedPF_cons, h2, g2]; rfl
    · rw [List.all_cons, h3, g3]; rfl

/-- The flattening pass creates no `p` element. -/
theorem pfree_clean : ∀ l : List Node, hasElemF "p".data l = false →
    hasElemF "p".data (cleanF l) = false := by
  refine forestInd
    (fun n => hasElemN "p".data n = false → hasElemN "p".data (cleanN n) = false)
    (fun l => hasElemF "p".data l = false → hasElemF "p".data (cleanF l) = false)
    (fun _ h => h) ?_ (fun h => h) ?_
  · intro t a cs ih h
    rw [hasElemN_elem, Bool.or_eq_false_iff] at h
    have htp : ¬ t = "p".data := of_decide_eq_false h.1
    rw [cleanN, if_neg htp, hasElemN_elem, Bool.or_eq_false_iff]
    exact ⟨h.1, ih h.2⟩
  · intro n r ihn ihr h
    rw [hasElemF_cons, Bool.or_eq_false_iff] at h
    show hasElemF "p".data (cleanN n :: cleanF r) = false
    rw [hasElemF_cons, Bool.or_eq_false_iff]
    exact ⟨ihn h.1, ihr h.2⟩

theorem clean_empty_p (a : List (Str × Str)) :
    cleanN (.elem "p".data a []) = .elem "p".data a [] := rfl

theorem dirOk_elem_nochild (t : Str) (a : List (Str × Str)) :
    dirOk (.elem t a []) = true := by
  rw [dirOk]
  split
  · rfl
  · rfl

theorem edpN_elem_nochild (t : Str) (a : List (Str × Str)) :
    edpN (.elem t a []) = true := by
  show ((if t = "p".data then List.all [] dirOk else true) && edpF []) = true
  split
  · rfl
  · rfl

/-- Children of a `p` kept in place by the hoist satisfy the invariant,
given that the tree was shallow. -/
theorem keep_edp : ∀ cs : List Node, cs.all pFreeInside = true →
    (cleanKeepF cs).all dirOk = true ∧ edpF (cleanKeepF cs) = true := by
  intro cs
  induction cs with
  | nil => intro _; exact ⟨rfl, rfl⟩
  | cons c r ih =>
    intro h
    rw [List.all_cons, Bool.and_eq_true_iff] at h
    obtain ⟨ka, ke⟩ := ih h.2
    show ((if isNonemptyP c then [] else [cleanN c]) ++ cleanKeepF r).all dirOk = true ∧
      edpF ((if isNonemptyP c then [] else [cleanN c]) ++ cleanKeepF r) = true
    by_cases hne : isNonemptyP c = true
    · rw [if_pos hne]
      exact ⟨ka, ke⟩
    · rw [if_neg hne]
      have hc : dirOk (cleanN c) = true ∧ edpN (cleanN c) = true := by
        cases c with
        | text s => exact ⟨rfl, rfl⟩
        | elem t a' cs' =>
          by_cases htp : t = "p".data
          · subst htp
            cases cs' with
            | nil =>
              rw [clean_empty_p]
              exact ⟨dirOk_elem_nochild _ _, edpN_elem_nochild _ _⟩
            | cons x xs =>
              exact absurd
                (show isNonemptyP (Node.elem "p".data a' (x :: xs)) = true from rfl) hne
          · have hfree : hasElemF "p".data cs' = false := by
              have hth := h.1
              rw [pFreeInside] at hth
              simpa using hth
            rw [cleanN, if_neg htp]
            have hfree' := pfree_clean cs' hfree
            constructor
            · show (if t = "p".data then (cleanF cs').isEmpty
                else ! hasElemF "p".data (cleanF cs')) = true
              rw [if_neg htp, hfree']
              rfl
            · show ((if t = "p".data then (cleanF cs').all dirOk else true) &&
                edpF (cleanF cs')) = true
              rw [if_neg htp, (pfree_parts _ hfree').1]
              rfl
      rw [List.all_append, List.all_cons, edpF_append, edpF_cons]
      rw [hc.1, hc.2, ka, ke]
      exact ⟨rfl, rfl⟩

/-- The hoisted contents below a shallow `p` contain no `p` element. -/
theorem hoist_pfree : ∀ cs : List Node, cs.all pFreeInside = true →
    hasElemF "p".data (cleanHoistF cs) = false := by
  intro cs
  induction cs with
  | nil => intro _; rfl
  | cons c r ih =>
    intro h
    rw [List.all_cons, Bool.and_eq_true_iff] at h
    show hasElemF "p".data (cleanHoistN c ++ cleanHoistF r) = false
    rw [hasElemF_append, Bool.or_eq_false_iff]
    refine ⟨?_, ih h.2⟩
    cases c with
    | text s => rfl
    | elem t a' cs' =>
      rw [cleanHoistN]
      split
      · split
        · rfl
        · have hfree : hasElemF "p".data cs' = false := by
            have hth := h.1
            rw [pFreeInside] at hth
            simpa using hth
          exact pfree_clean cs' hfree
      · rfl

/-- After the flattening pass on a shallow tree, every `p` has only
admissible direct children. -/
theorem edp_clean : ∀ l : List Node, shallowPF l = true → edpF (cleanF l) = true := by
  refine forestInd
    (fun n => shallowPN n = true → edpN (cleanN n) = true)
    (fun l => shallowPF l = true → edpF (cleanF l) = true)
    (fun _ _ => rfl) ?_ (fun _ => rfl) ?_
  · intro t a cs ih h
    have h' : (if t = "p".data then cs.all pFreeInside else true) = true ∧
        shallowPF cs = true := Bool.and_eq_true_iff.mp h
    by_cases htp : t = "p".data
    · subst htp
      rw [if_pos rfl] at h'
      have hk := keep_edp cs h'.1
      have hh := hoist_pfree cs h'.1
      have hhp := pfree_parts (cleanHoistF cs) hh
      rw [cleanN, if_pos rfl]
      show ((if "p".data = "p".data then
          (cleanKeepF cs ++ cleanHoistF cs).all dirOk else true) &&
        edpF (cleanKeepF cs ++ cleanHoistF cs)) = true
      rw [if_pos rfl, List.all_append, edpF_append, hk.1, hk.2, hhp.2.2, hhp.1]
      rfl
    · rw [cleanN, if_neg htp]
      show ((if t = "p".data then (cleanF cs).all dirOk else true) &&
        edpF (cleanF cs)) = true
      rw [if_neg htp, ih h'.2]
      rfl
  · intro n r ihn ihr h
    have h' := Bool.and_eq_true_iff.mp h
    show edpF (cleanN n :: cleanF r) = true
    rw [edpF_cons, ihn h'.1, ihr h'.2]
    rfl

/-- The emphasis pass creates no `p` element. -/
theorem pfree_fixFormat : ∀ l : List Node, hasElemF "p".data l = false →
    hasElemF "p".data (fixFormatF l) = false := by
  refine forestInd
    (fun n => hasElemN "p".data n = false → hasElemN "p".data (fixFormatN n) = false)
    (fun l => hasElemF "p".data l = false → hasElemF "p".data (fixFormatF l) = false)
    (fun _ h => h) ?_ (fun h => h) ?_
  · intro t a cs ih h
    rw [hasElemN_elem, Bool.or_eq_false_iff] at h
    have hrec : hasElemN "p".data (.elem t a (fixFormatF cs)) = false := by
      rw [hasElemN_elem, Bool.or_eq_false_iff]
      exact ⟨h.1, ih h.2⟩
    simp only [fixFormatN]
    split
    · cases hS : stringOfF cs with
      | some s =>
        dsimp only
        split
        · split
          · rfl
          · split
            · rfl
            · exact hrec
        · exact hrec
      | none => exact hrec
    · exact hrec
  · intro n r ihn ihr h
    rw [hasElemF_cons, Bool.or_eq_false_iff] at h
    show hasElemF "p".data (fixFormatN n :: fixFormatF r) = false
    rw [hasElemF_cons, Bool.or_eq_false_iff]
    exact ⟨ihn h.1, ihr h.2⟩

theorem fixFormat_empty (t : Str) (a : List (Str × Str)) :
    fixFormatN (.elem t a []) = .elem t a [] := by
  simp only [fixFormatN]
  split
  · rfl
  · rfl

/-- Admissible direct children stay admissible through the emphasis pass. -/
theorem dirOk_fixFormat (c : Node) (h : dirOk c = true) :
    dirOk (fixFormatN c) = true := by
  cases c with
  | text s => exact h
  | elem t a' cs' =>
    by_cases htp : t = "p".data
    · subst htp
      rw [dirOk, if_pos rfl] at h
      have : cs' = [] := by
        cases cs' with
        | nil => rfl
        | cons x xs => cases h
      subst this
      rw [fixFormat_empty]
      exact dirOk_elem_nochild _ _
    · rw [dirOk, if_neg htp] at h
      have hfree : hasElemF "p".data cs' = false := by simpa using h
      have hfree' := pfree_fixFormat cs' hfree
      simp only [fixFormatN]
      split
      · cases hS : stringOfF cs' with
        | some s =>
          dsimp only
          split
          · split
            · rfl
            · split
              · rfl
              · rw [dirOk, if_neg htp, hfree']
                rfl
          · rw [dirOk, if_neg htp, hfree']
            rfl
        | none =>
          rw [dirOk, if_neg htp, hfree']
          rfl
      · rw [dirOk, if_neg htp, hfree']
        rfl

theorem allDirOk_fixFormat : ∀ cs : List Node, cs.all dirOk = true →
    (fixFormatF cs).all dirOk = true := by
  intro cs
  induction cs with
  | nil => intro _; rfl
  | cons c r ih =>
    intro h
    rw [List.all_cons, Bool.and_eq_true_iff] at h
    show (fixFormatN c :: fixFormatF r).all dirOk = true
    rw [List.all_cons, dirOk_fixFormat c h.1, ih h.2]
    rfl

/-- The emphasis pass preserves the flattened-paragraph invariant. -/
theorem edp_fixFormat : ∀ l : List Node, edpF l = true → edpF (fixFormatF l) = true := by
  refine forestInd
    (fun n => edpN n = true → edpN (fixFormatN n) = true)
    (fun l => edpF l = true → edpF (fixFormatF l) = true)
    (fun _ _ => rfl) ?_ (fun _ => rfl) ?_
  · intro t a cs ih h
    have h' : (if t = "p".data then cs.all dirOk else true) = true ∧ edpF cs = true :=
      Bool.and_eq_true_iff.mp h
    have hrec : edpN (.elem t a (fixFormatF cs)) = true := by
      show ((if t = "p".data then (fixFormatF cs).all dirOk else true) &&
        edpF (fixFormatF cs)) = true
      by_cases htp : t = "p".data
      · rw [if_pos htp]
        rw [if_pos htp] at h'
        rw [allDirOk_fixFormat cs h'.1, ih h'.2]
        rfl
      · rw [if_neg htp, ih h'.2]
        rfl
    simp only [fixFormatN]
    split
    · cases hS : stringOfF cs with
      | some s =>
        dsimp only
        split
        · split
          · rfl
          · split
            · rfl
            · exact hrec
        · exact hrec
      | none => exact hrec
    · exact hrec
  · intro n r ihn ihr h
    have h' := Bool.and_eq_true_iff.mp h
    show edpF (fixFormatN n :: fixFormatF r) = true
    rw [edpF_cons, ihn h'.1, ihr h'.2]
    rfl

/-- The pruning pass creates no `p` element. -/
theorem pfree_prune : ∀ l : List Node, hasElemF "p".data l = false →
    hasElemF "p".data (pruneF l) = false := by
  refine forestInd
    (fun n => hasElemN "p".data n = false →
      ∀ n', pruneN n = some n' → hasElemN "p".data n' = false)
    (fun l => hasElemF "p".data l = false → hasElemF "p".data (pruneF l) = false)
    ?_ ?_ (fun h => h) ?_
  · intro s _ n' hp
    injection hp with hp
    subst hp
    rfl
  · intro t a cs ih h n' hp
    rw [hasElemN_elem, Bool.or_eq_false_iff] at h
    have htp : ¬ t = "p".data := of_decide_eq_false h.1
    rw [pruneN, if_neg htp] at hp
    injection hp with hp
    subst hp
    rw [hasElemN_elem, Bool.or_eq_false_iff]
    exact ⟨h.1, ih h.2⟩
  · intro n r ihn ihr h
    rw [hasElemF_cons, Bool.or_eq_false_iff] at h
    show hasElemF "p".data
      (match pruneN n with
       | some n' => n' :: pruneF r
       | none => pruneF r) = false
    cases hn : pruneN n with
    | none => exact ihr h.2
    | some n' =>
      dsimp only
      rw [hasElemF_cons, Bool.or_eq_false_iff]
      exact ⟨ihn h.1 n' hn, ihr h.2⟩

/-- Pruning the admissible children of a `p` leaves no `p` at all: empty
`p` children are decomposed, and the rest contained no `p`. -/
theorem dirOk_prune_pfree : ∀ cs : List Node, cs.all dirOk = true →
    hasElemF "p".data (pruneF cs) = false := by
  intro cs
  induction cs with
  | nil => intro _; rfl
  | cons c r ih =>
    intro h
    rw [List.all_cons, Bool.and_eq_true_iff] at h
    show hasElemF "p".data
      (match pruneN c with
       | some n' => n' :: pruneF r
       | none => pruneF r) = false
    cases c with
    | text s =>
      dsimp only [pruneN]
      rw [hasElemF_cons, Bool.or_eq_false_iff]
      exact ⟨rfl, ih h.2⟩
    | elem t a' cs' =>
      by_cases htp : t = "p".data
      · subst htp
        rw [dirOk, if_pos rfl] at h
        have : cs' = [] := by
          cases cs' with
          | nil => rfl
          | cons x xs => cases h.1
        subst this
        have : pruneN (Node.elem "p".data a' []) = none := rfl
        rw [this]
        exact ih h.2
      · rw [dirOk, if_neg htp] at h
        have hfree : hasElemF "p".data cs' = false := by simpa using h.1
        rw [show pruneN (Node.elem t a' cs') = some (.elem t a' (pruneF cs')) by
          rw [pruneN, if_neg htp]]
        rw [hasElemF_cons, Bool.or_eq_false_iff]
        constructor
        · rw [hasElemN_elem, Bool.or_eq_false_iff]
          exact ⟨decide_eq_false htp, pfree_prune cs' hfree⟩
        · exact ih h.2

/-- After pruning a tree with the flattened invariant, no `p` element has a
`p` descendant. -/
theorem noNested_prune : ∀ l : List Node, edpF l = true →
    noNestedPF (pruneF l) = true := by
  refine forestInd
    (fun n => edpN n = true → ∀ n', pruneN n = some n' → noNestedPN n' = true)
    (fun l => edpF l = true → noNestedPF (pruneF l) = true)
    ?_ ?_ (fun _ => rfl) ?_
  · intro s _ n' hp
    injection hp with hp
    subst hp
    rfl
  · intro t a cs ih h n' hp
    have h' : (if t = "p".data then cs.all dirOk else true) = true ∧ edpF cs = true :=
      Bool.and_eq_true_iff.mp h
    by_cases htp : t = "p".data
    · subst htp
      rw [if_pos rfl] at h'
      rw [pruneN, if_pos rfl] at hp
      split at hp
      · cases hp
      · split at hp
        · injection hp with hp
          subst hp
          rfl
        · injection hp with hp
          subst hp
          have hfree := dirOk_prune_pfree cs h'.1
          show ((if "p".data = "p".data then ! hasElemF "p".data (pruneF cs)
            else true) && noNestedPF (pruneF cs)) = true
          rw [if_pos rfl, hfree, (pfree_parts _ hfree).2.1]
          rfl
    · rw [pruneN, if_neg htp] at hp
      injection hp with hp
      subst hp
      show ((if t = "p".data then ! hasElemF "p".data (pruneF cs) else true) &&
        noNestedPF (pruneF cs)) = true
      rw [if_neg htp, ih h'.2]
      rfl
  · intro n r ihn ihr h
    have h' := Bool.and_eq_true_iff.mp h
    show noNestedPF
      (match pruneN n with
       | some n' => n' :: pruneF r
       | none => pruneF r) = true
    cases hn : pruneN n with
    | none => exact ihr h'.2
    | some n' =>
      dsimp only
      rw [noNestedPF_cons, ihn h'.1 n' hn, ihr h'.2]
      rfl

/-- The `td`→`th` renaming touches no `p`. -/
theorem pfree_tdToTh : ∀ l : List Node, hasElemF "p".data l = false →
    hasElemF "p".data (tdToThF l) = false := by
  refine forestInd
    (fun n => hasElemN "p".data n = false → hasElemN "p".data (tdToThN n) = false)
    (fun l => hasElemF "p".data l = false → hasElemF "p".data (tdToThF l) = false)
    (fun _ h => h) ?_ (fun h => h) ?_
  · intro t a cs ih h
    rw [hasElemN_elem, Bool.or_eq_false_iff] at h
    show hasElemN "p".data
      (.elem (if t = "td".data then "th".data else t) a (tdToThF cs)) = false
    rw [hasElemN_elem, Bool.or_eq_false_iff]
    refine ⟨?_, ih h.2⟩
    split
    · rfl
    · exact h.1
  · intro n r ihn ihr h
    rw [hasElemF_cons, Bool.or_eq_false_iff] at h
    show hasElemF "p".data (tdToThN n :: tdToThF r) = false
    rw [hasElemF_cons, Bool.or_eq_false_iff]
    exact ⟨ihn h.1, ihr h.2⟩

theorem noNested_tdToTh : ∀ l : List Node, noNestedPF l = true →
    noNestedPF (tdToThF l) = true := by
  refine forestInd
    (fun n => noNestedPN n = true → noNestedPN (tdToThN n) = true)
    (fun l => noNestedPF l = true → noNestedPF (tdToThF l) = true)
    (fun _ _ => rfl) ?_ (fun _ => rfl) ?_
  · intro t a cs ih h
    have h' : (if t = "p".data then ! hasElemF "p".data cs else true) = true ∧
        noNestedPF cs = true := Bool.and_eq_true_iff.mp h
    show ((if (if t = "td".data then "th".data else t) = "p".data then
        ! hasElemF "p".data (tdToThF cs) else true) &&
      noNestedPF (tdToThF cs)) = true
    by_cases htd : t = "td".data
    · rw [if_pos htd, if_neg (show ¬ ("th".data : Str) = "p".data by decide),
        ih h'.2]
      rfl
    · rw [if_neg htd]
      by_cases htp : t = "p".data
      · rw [if_pos htp]
        rw [if_pos htp] at h'
        have hfree : hasElemF "p".data cs = false := by simpa using h'.1
        rw [pfree_tdToTh cs hfree, ih h'.2]
        rfl
      · rw [if_neg htp, ih h'.2]
        rfl
  · intro n r ihn ihr h
    have h' := Bool.and_eq_true_iff.mp h
    show noNestedPF (tdToThN n :: tdToThF r) = true
    rw [noNestedPF_cons, ihn h'.1, ihr h'.2]
    rfl

/-- Removing rows touches no `p`. -/
theorem pfree_removeTrs : ∀ l : List Node, hasElemF "p".data l = false →
    hasElemF "p".data (removeTrsF l) = false := by
  refine forestInd
    (fun n => hasElemN "p".data n = false → hasElemF "p".data (removeTrsN n) = false)
    (fun l => hasElemF "p".data l = false → hasElemF "p".data (removeTrsF l) = false)
    (fun _ h => by
      show hasElemF "p".data [.text _] = false
      rfl) ?_ (fun h => h) ?_
  · intro t a cs ih h
    rw [hasElemN_elem, Bool.or_eq_false_iff] at h
    show hasElemF "p".data
      (if t = "tr".data then [] else [.elem t a (removeTrsF cs)]) = false
    split
    · rfl
    · rw [hasElemF_cons, Bool.or_eq_false_iff]
      refine ⟨?_, rfl⟩
      rw [hasElemN_elem, Bool.or_eq_false_iff]
      exact ⟨h.1, ih h.2⟩
  · intro n r ihn ihr h
    rw [hasElemF_cons, Bool.or_eq_false_iff] at h
    show hasElemF "p".data (removeTrsN n ++ removeTrsF r) = false
    rw [hasElemF_append, Bool.or_eq_false_iff]
    exact ⟨ihn h.1, ihr h.2⟩

theorem noNested_removeTrs : ∀ l : List Node, noNestedPF l = true →
    noNestedPF (removeTrsF l) = true := by
  refine forestInd
    (fun n => noNestedPN n = true → noNestedPF (removeTrsN n) = true)
    (fun l => noNestedPF l = true → noNestedPF (removeTrsF l) = true)
    (fun _ _ => rfl) ?_ (fun _ => rfl) ?_
  · intro t a cs ih h
    have h' : (if t = "p".data then ! hasElemF "p".data cs else true) = true ∧
        noNestedPF cs = true := Bool.and_eq_true_iff.mp h
    show noNestedPF
      (if t = "tr".data then [] else [.elem t a (removeTrsF cs)]) = true
    split
    · rfl
    · rw [noNestedPF_cons]
      have hn : noNestedPN (.elem t a (removeTrsF cs)) = true := by
        show ((if t = "p".data then ! hasElemF "p".data (removeTrsF cs) else true) &&
          noNestedPF (removeTrsF cs)) = true
        by_cases htp : t = "p".data
        · rw [if_pos htp]
          rw [if_pos htp] at h'
          have hfree : hasElemF "p".data cs = false := by simpa using h'.1
          rw [pfree_removeTrs cs hfree, ih h'.2]
          rfl
        · rw [if_neg htp, ih h'.2]
          rfl
      rw [hn]
      rfl
  · intro n r ihn ihr h
    have h' := Bool.and_eq_true_iff.mp h
    show noNestedPF (removeTrsN n ++ removeTrsF r) = true
    rw [noNestedPF_append, ihn h'.1, ihr h'.2]
    rfl

theorem pfree_renameFirstTr : ∀ l : List Node, hasElemF "p".data l = false →
    hasElemF "p".data (renameFirstTrF l) = false := by
  refine forestInd
    (fun n => hasElemN "p".data n = false →
      hasElemN "p".data (renameFirstTrN n) = false)
    (fun l => hasElemF "p".data l = false →
      hasElemF "p".data (renameFirstTrF l) = false)
    (fun _ h => h) ?_ (fun h => h) ?_
  · intro t a cs ih h
    rw [hasElemN_elem, Bool.or_eq_false_iff] at h
    show hasElemN "p".data (.elem t a (renameFirstTrF cs)) = false
    rw [hasElemN_elem, Bool.or_eq_false_iff]
    exact ⟨h.1, ih h.2⟩
  · intro n r ihn ihr h
    rw [hasElemF_cons, Bool.or_eq_false_iff] at h
    cases n with
    | text s =>
      show hasElemF "p".data (.text s :: renameFirstTrF r) = false
      rw [hasElemF_cons, Bool.or_eq_false_iff]
      exact ⟨rfl, ihr h.2⟩
    | elem t a cs =>
      have hx := h.1
      rw [hasElemN_elem, Bool.or_eq_false_iff] at hx
      show hasElemF "p".data
        (if t = "tr".data then .elem t a (tdToThF cs) :: r
         else if hasElemF "tr".data cs then renameFirstTrN (.elem t a cs) :: r
         else .elem t a cs :: renameFirstTrF r) = false
      split
      · rw [hasElemF_cons, Bool.or_eq_false_iff]
        refine ⟨?_, h.2⟩
        rw [hasElemN_elem, Bool.or_eq_false_iff]
        exact ⟨hx.1, pfree_tdToTh cs hx.2⟩
      · split
        · rw [hasElemF_cons, Bool.or_eq_false_iff]
          exact ⟨ihn h.1, h.2⟩
        · rw [hasElemF_cons, Bool.or_eq_false_iff]
          exact ⟨h.1, ihr h.2⟩

theorem noNested_renameFirstTr : ∀ l : List Node, noNestedPF l = true →
    noNestedPF (renameFirstTrF l) = true := by
  refine forestInd
    (fun n => noNestedPN n = true → noNestedPN (renameFirstTrN n) = true)
    (fun l => noNestedPF l = true → noNestedPF (renameFirstTrF l) = true)
    (fun _ _ => rfl) ?_ (fun _ => rfl) ?_
  · intro t a cs ih h
    have h' : (if t = "p".data then ! hasElemF "p".data cs else true) = true ∧
        noNestedPF cs = true := Bool.and_eq_true_iff.mp h
    show ((if t = "p".data then ! hasElemF "p".data (renameFirstTrF cs) else true) &&
      noNestedPF (renameFirstTrF cs)) = true
    by_cases htp : t = "p".data
    · rw [if_pos htp]
      rw [if_pos htp] at h'
      have hfree : hasElemF "p".data cs = false := by simpa using h'.1
      have hfree' : hasElemF "p".data (renameFirstTrF cs) = false :=
        pfree_renameFirstTr cs hfree
      rw [hfree', ih h'.2]
      rfl
    · rw [if_neg htp, ih h'.2]
      rfl
  · intro n r ihn ihr h
    have h' := Bool.and_eq_true_iff.mp h
    cases n with
    | text s =>
      show noNestedPF (.text s :: renameFirstTrF r) = true
      rw [noNestedPF_cons, ihr h'.2]
      rfl
    | elem t a cs =>
      have hx : (if t = "p".data then ! hasElemF "p".data cs else true) = true ∧
          noNestedPF cs = true := Bool.and_eq_true_iff.mp h'.1
      show noNestedPF
        (if t = "tr".data then .elem t a (tdToThF cs) :: r
         else if hasElemF "tr".data cs then renameFirstTrN (.elem t a cs) :: r
         else .elem t a cs :: renameFirstTrF r) = true
      split
      · rw [noNestedPF_cons]
        have hn : noNestedPN (.elem t a (tdToThF cs)) = true := by
          show ((if t = "p".data then ! hasElemF "p".data (tdToThF cs) else true) &&
            noNestedPF (tdToThF cs)) = true
          by_cases htp : t = "p".data
          · rw [if_pos htp]
            rw [if_pos htp] at hx
            have hfree : hasElemF "p".data cs = false := by simpa using hx.1
            rw [pfree_tdToTh cs hfree, noNested_tdToTh cs hx.2]
            rfl
          · rw [if_neg htp, noNested_tdToTh cs hx.2]
            rfl
        rw [hn, h'.2]
        rfl
      · split
        · rw [noNestedPF_cons, ihn h'.1, h'.2]
          rfl
        · rw [noNestedPF_cons, h'.1, ihr h'.2]
          rfl

/-- Every row listed by `find_all('tr')` keeps the invariant. -/
theorem noNested_trs : ∀ l : List Node, noNestedPF l = true →
    noNestedPF (trsF l) = true := by
  refine forestInd
    (fun n => noNestedPN n = true → noNestedPF (trsN n) = true)
    (fun l => noNestedPF l = true → noNestedPF (trsF l) = true)
    (fun _ _ => rfl) ?_ (fun _ => rfl) ?_
  · intro t a cs ih h
    have h' : (if t = "p".data then ! hasElemF "p".data cs else true) = true ∧
        noNestedPF cs = true := Bool.and_eq_true_iff.mp h
    show noNestedPF ((if t = "tr".data then [Node.elem t a cs] else []) ++ trsF cs) = true
    rw [noNestedPF_append]
    have hs : noNestedPF (if t = "tr".data then [Node.elem t a cs] else []) = true := by
      split
      · rw [noNestedPF_cons, h]
        rfl
      · rfl
    rw [hs, ih h'.2]
    rfl
  · intro n r ihn ihr h
    have h' := Bool.and_eq_true_iff.mp h
    show noNestedPF (trsN n ++ trsF r) = true
    rw [noNestedPF_append, ihn h'.1, ihr h'.2]
    rfl

theorem noNested_huskMap : ∀ l : List Node, noNestedPF l = true →
    noNestedPF (l.map huskTr) = true := by
  intro l
  induction l with
  | nil => intro _; rfl
  | cons n r ih =>
    intro h
    have h' := Bool.and_eq_true_iff.mp h
    rw [List.map_cons, noNestedPF_cons]
    have hn : noNestedPN (huskTr n) = true := by
      cases n with
      | text s => rfl
      | elem t a cs =>
        have hx : (if t = "p".data then ! hasElemF "p".data cs else true) = true ∧
            noNestedPF cs = true := Bool.and_eq_true_iff.mp h'.1
        show ((if t = "p".data then ! hasElemF "p".data (removeTrsF cs) else true) &&
          noNestedPF (removeTrsF cs)) = true
        by_cases htp : t = "p".data
        · rw [if_pos htp]
          rw [if_pos htp] at hx
          have hfree : hasElemF "p".data cs = false := by simpa using hx.1
          rw [pfree_removeTrs cs hfree, noNested_removeTrs cs hx.2]
          rfl
        · rw [if_neg htp, noNested_removeTrs cs hx.2]
          rfl
    rw [hn, ih h'.2]
    rfl

theorem pfree_trs : ∀ l : List Node, hasElemF "p".data l = false →
    hasElemF "p".data (trsF l) = false := by
  refine forestInd
    (fun n => hasElemN "p".data n = false → hasElemF "p".data (trsN n) = false)
    (fun l => hasElemF "p".data l = false → hasElemF "p".data (trsF l) = false)
    (fun _ _ => rfl) ?_ (fun h => h) ?_
  · intro t a cs ih h
    have hx := h
    rw [hasElemN_elem, Bool.or_eq_false_iff] at hx
    show hasElemF "p".data
      ((if t = "tr".data then [Node.elem t a cs] else []) ++ trsF cs) = false
    rw [hasElemF_append, Bool.or_eq_false_iff]
    refine ⟨?_, ih hx.2⟩
    split
    · rw [hasElemF_cons, Bool.or_eq_false_iff]
      exact ⟨h, rfl⟩
    · rfl
  · intro n r ihn ihr h
    rw [hasElemF_cons, Bool.or_eq_false_iff] at h
    show hasElemF "p".data (trsN n ++ trsF r) = false
    rw [hasElemF_append, Bool.or_eq_false_iff]
    exact ⟨ihn h.1, ihr h.2⟩

theorem pfree_huskMap : ∀ l : List Node, hasElemF "p".data l = false →
    hasElemF "p".data (l.map huskTr) = false := by
  intro l
  induction l with
  | nil => intro _; rfl
  | cons n r ih =>
    intro h
    rw [hasElemF_cons, Bool.or_eq_false_iff] at h
    rw [List.map_cons, hasElemF_cons, Bool.or_eq_false_iff]
    refine ⟨?_, ih h.2⟩
    cases n with
    | text s => rfl
    | elem t a cs =>
      have hx := h.1
      rw [hasElemN_elem, Bool.or_eq_false_iff] at hx
      show hasElemN "p".data (.elem t a (removeTrsF cs)) = false
      rw [hasElemN_elem, Bool.or_eq_false_iff]
      exact ⟨hx.1, pfree_removeTrs cs hx.2⟩

theorem pfree_fixTables : ∀ l : List Node, hasElemF "p".data l = false →
    hasElemF "p".data (fixTablesF l) = false := by
  refine forestInd
    (fun n => hasElemN "p".data n = false → hasElemN "p".data (fixTablesN n) = false)
    (fun l => hasElemF "p".data l = false → hasElemF "p".data (fixTablesF l) = false)
    (fun _ h => h) ?_ (fun h => h) ?_
  · intro t a cs ih h
    rw [hasElemN_elem, Bool.or_eq_false_iff] at h
    have hren := pfree_renameFirstTr cs h.2
    simp only [fixTablesN]
    split
    · rw [hasElemN_elem, Bool.or_eq_false_iff]
      refine ⟨h.1, ?_⟩
      rw [hasElemF_cons, Bool.or_eq_false_iff]
      refine ⟨rfl, ?_⟩
      rw [hasElemF_append, Bool.or_eq_false_iff]
      refine ⟨pfree_removeTrs _ hren, ?_⟩
      rw [hasElemF_cons, Bool.or_eq_false_iff]
      refine ⟨?_, rfl⟩
      rw [hasElemN_elem, Bool.or_eq_false_iff]
      exact ⟨rfl, pfree_huskMap _ (pfree_trs _ hren)⟩
    · rw [hasElemN_elem, Bool.or_eq_false_iff]
      exact ⟨h.1, ih h.2⟩
  · intro n r ihn ihr h
    rw [hasElemF_cons, Bool.or_eq_false_iff] at h
    show hasElemF "p".data (fixTablesN n :: fixTablesF r) = false
    rw [hasElemF_cons, Bool.or_eq_false_iff]
    exact ⟨ihn h.1, ihr h.2⟩

/-- The table pass preserves "no `p` inside a `p`". -/
theorem noNested_fixTables : ∀ l : List Node, noNestedPF l = true →
    noNestedPF (fixTablesF l) = true := by
  refine forestInd
    (fun n => noNestedPN n = true → noNestedPN (fixTablesN n) = true)
    (fun l => noNestedPF l = true → noNestedPF (fixTablesF l) = true)
    (fun _ _ => rfl) ?_ (fun _ => rfl) ?_
  · intro t a cs ih h
    have h' : (if t = "p".data then ! hasElemF "p".data cs else true) = true ∧
        noNestedPF cs = true := Bool.and_eq_true_iff.mp h
    simp only [fixTablesN]
    split
    · rename_i hcond
      have htt : t = "table".data := hcond.1
      subst htt
      have hren := noNested_renameFirstTr cs h'.2
      show ((if ("table".data : Str) = "p".data then
          ! hasElemF "p".data (.elem "thead".data [] [] ::
            (removeTrsF (renameFirstTrF cs) ++
              [.elem "tbody".data []
                ((trsF (renameFirstTrF cs)).map huskTr)])) else true) &&
        noNestedPF (.elem "thead".data [] [] ::
          (removeTrsF (renameFirstTrF cs) ++
            [.elem "tbody".data []
              ((trsF (renameFirstTrF cs)).map huskTr)]))) = true
      rw [if_neg (show ¬ ("table".data : Str) = "p".data by decide)]
      rw [noNestedPF_cons, noNestedPF_append, noNestedPF_cons]
      rw [noNested_removeTrs _ hren]
      have htb : noNestedPN (.elem "tbody".data []
          ((trsF (renameFirstTrF cs)).map huskTr)) = true := by
        show ((if ("tbody".data : Str) = "p".data then
            ! hasElemF "p".data ((trsF (renameFirstTrF cs)).map huskTr) else true) &&
          noNestedPF ((trsF (renameFirstTrF cs)).map huskTr)) = true
        rw [if_neg (show ¬ ("tbody".data : Str) = "p".data by decide)]
        rw [noNested_huskMap _ (noNested_trs _ hren)]
        rfl
      rw [htb]
      rfl
    · show ((if t = "p".data then ! hasElemF "p".data (fixTablesF cs) else true) &&
        noNestedPF (fixTablesF cs)) = true
      by_cases htp : t = "p".data
      · rw [if_pos htp]
        rw [if_pos htp] at h'
        have hfree : hasElemF "p".data cs = false := by simpa using h'.1
        have hfree' : hasElemF "p".data (fixTablesF cs) = false :=
          pfree_fixTables cs hfree
        rw [hfree', ih h'.2]
        rfl
      · rw [if_neg htp, ih h'.2]
        rfl
  · intro n r ihn ihr h
    have h' := Bool.and_eq_true_iff.mp h
    show noNestedPF (fixTablesN n :: fixTablesF r) = true
    rw [noNestedPF_cons, ihn h'.1, ihr h'.2]
    rfl

/-- C3 (amended): the flattening pass only hoists the contents of `p`
elements that are *direct* children of a `p`.  Provided that in the
normalized tree (after list handling and tag normalization) no `p` element
has a `p` descendant below depth one, the full rewrite produces a tree in
which no `p` element has any `p` descendant; the unrestricted claim is
refuted by the counterexample. -/
theorem c3_no_nested_p_amended (f : List Node)
    (h : shallowPF (normalizeF (handleListsF f)) = true) :
    noNestedPF (filter_html f) = true :=
  noNested_fixTables _ (noNested_prune _ (edp_fixFormat _ (edp_clean _ h)))

/-- C3 witness: the amended statement at the tree
`<p><p>x</p>hello</p>`, whose normalized form is shallow. -/
theorem c3_no_nested_p_amended_witness :
    shallowPF (normalizeF (handleListsF
      [Node.elem "p".data [] [Node.elem "p".data [] [Node.text "x".data],
        Node.text "hello".data]])) = true ∧
    noNestedPF (filter_html
      [Node.elem "p".data [] [Node.elem "p".data [] [Node.text "x".data],
        Node.text "hello".data]]) = true :=
  ⟨rfl, c3_no_nested_p_amended _ rfl⟩

/-! ### String lemmas for the character-preservation arguments -/

theorem sigStr_append (keep : Char → Bool) (a b : Str) :
    sigStr keep (a ++ b) = sigStr keep a + sigStr keep b := by
  simp [sigStr, List.filter_append]

/-- The kept characters of a subtree are the kept characters of its
`get_text()`. -/
theorem sig_getText (keep : Char → Bool) : ∀ l : List Node,
    sigF keep l = sigStr keep (getTextF l) := by
  refine forestInd
    (fun n => sigN keep n = sigStr keep (getTextN n))
    (fun l => sigF keep l = sigStr keep (getTextF l))
    (fun _ => rfl) ?_ rfl ?_
  · intro t a cs ih
    exact ih
  · intro n r ihn ihr
    show sigN keep n + sigF keep r = sigStr keep (getTextN n ++ getTextF r)
    rw [sigStr_append, ihn, ihr]

theorem strip_nil_iff (s : Str) :
    pyStrip s = [] ↔ ∀ c ∈ s, pyWs c = true := by
  constructor
  · intro h c hc
    rw [pyStrip, List.reverse_eq_nil_iff] at h
    by_cases hws : pyWs c = true
    · exact hws
    · exfalso
      have hmem : c ∈ s.dropWhile pyWs := by
        have hsplit : s.takeWhile pyWs ++ s.dropWhile pyWs = s :=
          List.takeWhile_append_dropWhile pyWs s
        rw [← hsplit] at hc
        rcases List.mem_append.mp hc with h1 | h1
        · exact absurd (List.mem_takeWhile_imp h1) hws
        · exact h1
      have hmem' : c ∈ (s.dropWhile pyWs).reverse.dropWhile pyWs := by
        have hsplit : (s.dropWhile pyWs).reverse.takeWhile pyWs ++
            (s.dropWhile pyWs).reverse.dropWhile pyWs = (s.dropWhile pyWs).reverse :=
          List.takeWhile_append_dropWhile pyWs _
        have hc' : c ∈ (s.dropWhile pyWs).reverse := List.mem_reverse.mpr hmem
        rw [← hsplit] at hc'
        rcases List.mem_append.mp hc' with h1 | h1
        · exact absurd (List.mem_takeWhile_imp h1) hws
        · exact h1
      rw [h] at hmem'
      cases hmem'
  · intro h
    rw [pyStrip, List.reverse_eq_nil_iff, List.dropWhile_eq_nil_iff]
    intro x hx
    have hx' : x ∈ s := by
      have hmem := List.mem_reverse.mp hx
      have hsplit := List.takeWhile_append_dropWhile pyWs s
      rw [← hsplit]
      exact List.mem_append_right _ hmem
    exact h x hx' 

/-- For a filter that keeps no whitespace, strip-emptiness is exactly
having no kept character. -/
theorem strip_nil_iff_filter (keep : Char → Bool)
    (hkw : ∀ c, pyWs c = true → keep c = false)
    (hwk : ∀ c, keep c = false → pyWs c = true) (s : Str) :
    pyStrip s = [] ↔ s.filter keep = [] := by
  rw [strip_nil_iff, List.filter_eq_nil_iff]
  constructor
  · intro h c hc
    rw [hkw c (h c hc)]
    simp
  · intro h c hc
    by_cases hx : keep c = true
    · exact absurd hx (h c hc)
    · exact hwk c (Bool.eq_false_iff.mpr hx)

theorem keepNW_ws (c : Char) (h : pyWs c = true) : keepNW c = false := by
  rw [keepNW, h]
  rfl

theorem keepNW_not (c : Char) (h : keepNW c = false) : pyWs c = true := by
  rw [keepNW] at h
  simpa using h

theorem keepC2_ws (c : Char) (h : pyWs c = true) : keepC2 c = false := by
  rw [keepC2, h]
  rfl

/-- Flattening a `splitOnP` after filtering with a separator-killing filter
recovers the filtered list. -/
theorem flatten_splitOnP_filter (keep : Char → Bool)
    (hkw : ∀ c, pyWs c = true → keep c = false) (s : Str) :
    ((List.splitOnP pyWs s).map (List.filter keep)).flatten = s.filter keep := by
  induction s with
  | nil => simp [List.splitOnP_nil]
  | cons c r ih =>
    rw [List.splitOnP_cons]
    by_cases hws : pyWs c = true
    · rw [if_pos hws, List.map_cons, List.flatten_cons, List.filter_cons]
      rw [hkw c hws]
      simpa using ih
    · rw [if_neg hws]
      obtain ⟨hd, tl, hsplit⟩ :
          ∃ hd tl, List.splitOnP pyWs r = hd :: tl := by
        cases hx : List.splitOnP pyWs r with
        | nil => exact absurd hx (List.splitOnP_ne_nil _ _)
        | cons hd tl => exact ⟨hd, tl, rfl⟩
      rw [hsplit]
      rw [hsplit, List.map_cons, List.flatten_cons] at ih
      show ((List.filter keep (c :: hd)) :: tl.map (List.filter keep)).flatten =
        List.filter keep (c :: r)
      rw [List.flatten_cons, List.filter_cons, List.filter_cons]
      by_cases hk : keep c
      · rw [if_pos hk, if_pos hk]
        simpa using ih
      · rw [if_neg hk, if_neg hk]
        exact ih

/-- Dropping the empty groups does not change the flattened filter. -/
theorem flatten_filter_nonempty (keep : Char → Bool) (l : List Str) :
    ((l.filter (fun w => w ≠ [])).map (List.filter keep)).flatten =
      (l.map (List.filter keep)).flatten := by
  induction l with
  | nil => rfl
  | cons w r ih =>
    simp only [ne_eq, decide_not] at ih ⊢
    by_cases hw : w = []
    · subst hw
      simp [List.filter_cons, ih]
    · simp [List.filter_cons, hw, ih]

theorem filter_intercalate (keep : Char → Bool) (hsp : keep ' ' = false)
    (l : List Str) :
    (List.intercalate [' '] l).filter keep = (l.map (List.filter keep)).flatten := by
  induction l with
  | nil => rfl
  | cons w r ih =>
    cases r with
    | nil => simp [List.intercalate]
    | cons y t =>
      have hstep : List.intercalate [' '] (w :: y :: t) =
          w ++ ([' '] ++ List.intercalate [' '] (y :: t)) := by
        simp [List.intercalate, List.intersperse_cons_cons]
      rw [hstep, List.filter_append, List.filter_append, ih,
        List.map_cons, List.flatten_cons]
      simp [List.filter_cons, hsp]

/-- Whitespace collapse preserves exactly the kept characters, in order. -/
theorem collapse_filter (keep : Char → Bool) (hsp : keep ' ' = false)
    (hkw : ∀ c, pyWs c = true → keep c = false) (s : Str) :
    (pyCollapse s).filter keep = s.filter keep := by
  rw [pyCollapse, filter_intercalate keep hsp, pySplit,
    flatten_filter_nonempty, flatten_splitOnP_filter keep hkw]

/-- A chained `.string` is the whole `get_text()` of the children. -/
theorem stringOf_getText : ∀ l : List Node, ∀ s : Str,
    stringOfF l = some s → getTextF l = s := by
  refine forestInd
    (fun n => ∀ s, stringOfN n = some s → getTextN n = s)
    (fun l => ∀ s, stringOfF l = some s → getTextF l = s)
    ?_ ?_ ?_ ?_
  · intro s s' h
    exact Option.some_inj.mp h
  · intro t a cs ih s h
    exact ih s h
  · intro s h
    cases h
  · intro n r ihn ihr s h
    cases r with
    | nil =>
      have hn := ihn s h
      show getTextN n ++ [] = s
      rw [List.append_nil]
      exact hn
    | cons y t => cases h

/-- The pruning pass preserves the non-whitespace characters of the text,
in order: decomposed paragraphs were all-whitespace and the collapse only
rewrites whitespace. -/
theorem prune_keepNW : ∀ l : List Node,
    (getTextF (pruneF l)).filter keepNW = (getTextF l).filter keepNW := by
  refine forestInd
    (fun n => (∀ n', pruneN n = some n' →
        (getTextN n').filter keepNW = (getTextN n).filter keepNW) ∧
      (pruneN n = none → (getTextN n).filter keepNW = []))
    (fun l => (getTextF (pruneF l)).filter keepNW = (getTextF l).filter keepNW)
    ?_ ?_ rfl ?_
  · intro s
    constructor
    · intro n' h
      injection h with h
      subst h
      rfl
    · intro h
      cases h
  · intro t a cs ih
    constructor
    · intro n' hp
      by_cases htp : t = "p".data
      · subst htp
        rw [pruneN, if_pos rfl] at hp
        split at hp
        · cases hp
        · rename_i hstrip
          cases hS : stringOfF cs with
          | some s0 =>
            rw [hS] at hp
            cases s0 with
            | nil =>
              dsimp only at hp
              injection hp with hp
              subst hp
              exact ih
            | cons c s0 =>
              dsimp only at hp
              injection hp with hp
              subst hp
              show (getTextF [Node.text (pyCollapse (c :: s0))]).filter keepNW =
                (getTextF cs).filter keepNW
              have hg : getTextF [Node.text (pyCollapse (c :: s0))] =
                  pyCollapse (c :: s0) := by
                show pyCollapse (c :: s0) ++ [] = pyCollapse (c :: s0)
                exact List.append_nil _
              rw [hg, stringOf_getText cs (c :: s0) hS]
              exact collapse_filter keepNW rfl keepNW_ws (c :: s0)
          | none =>
            rw [hS] at hp
            dsimp only at hp
            injection hp with hp
            subst hp
            exact ih
      · rw [pruneN, if_neg htp] at hp
        injection hp with hp
        subst hp
        exact ih
    · intro hp
      by_cases htp : t = "p".data
      · subst htp
        rw [pruneN, if_pos rfl] at hp
        split at hp
        · rename_i hstrip
          show (getTextF cs).filter keepNW = []
          exact (strip_nil_iff_filter keepNW keepNW_ws keepNW_not _).mp hstrip
        · cases hS : stringOfF cs with
          | some s0 =>
            rw [hS] at hp
            cases s0 with
            | nil => cases hp
            | cons c s0 => cases hp
          | none =>
            rw [hS] at hp
            cases hp
      · rw [pruneN, if_neg htp] at hp
        cases hp
  · intro n r ihn ihr
    show (getTextF
      (match pruneN n with
       | some n' => n' :: pruneF r
       | none => pruneF r)).filter keepNW =
      (getTextN n ++ getTextF r).filter keepNW
    rw [List.filter_append]
    cases hn : pruneN n with
    | none =>
      rw [ihn.2 hn]
      simpa using ihr
    | some n' =>
      dsimp only
      show (getTextN n' ++ getTextF (pruneF r)).filter keepNW = _
      rw [List.filter_append, ihn.1 n' hn, ihr]

/-- Every paragraph surviving the pruning pass has significant text. -/
theorem prune_sigP : ∀ l : List Node, sigPF (pruneF l) = true := by
  refine forestInd
    (fun n => ∀ n', pruneN n = some n' → sigPN n' = true)
    (fun l => sigPF (pruneF l) = true)
    ?_ ?_ rfl ?_
  · intro s n' h
    injection h with h
    subst h
    rfl
  · intro t a cs ih n' hp
    have hrec : sigPN (.elem t a (pruneF cs)) = true →
        sigPN (.elem t a (pruneF cs)) = true := fun h => h
    by_cases htp : t = "p".data
    · subst htp
      rw [pruneN, if_pos rfl] at hp
      split at hp
      · cases hp
      · rename_i hstrip
        cases hS : stringOfF cs with
        | some s0 =>
          rw [hS] at hp
          cases s0 with
          | nil =>
            dsimp only at hp
            injection hp with hp
            subst hp
            show ((if ("p".data : Str) = "p".data then
                ! decide (pyStrip (getTextF (pruneF cs)) = []) else true) &&
              sigPF (pruneF cs)) = true
            rw [if_pos rfl, ih]
            have hne : ¬ pyStrip (getTextF (pruneF cs)) = [] := by
              intro hcon
              apply hstrip
              have h1 := (strip_nil_iff_filter keepNW keepNW_ws keepNW_not _).mp hcon
              rw [prune_keepNW cs] at h1
              exact (strip_nil_iff_filter keepNW keepNW_ws keepNW_not _).mpr h1
            rw [decide_eq_false hne]
            rfl
          | cons c s0 =>
            dsimp only at hp
            injection hp with hp
            subst hp
            show ((if ("p".data : Str) = "p".data then
                ! decide (pyStrip (getTextF [Node.text (pyCollapse (c :: s0))]) = [])
              else true) && sigPF [Node.text (pyCollapse (c :: s0))]) = true
            rw [if_pos rfl]
            have hg : getTextF [Node.text (pyCollapse (c :: s0))] =
                pyCollapse (c :: s0) := by
              show pyCollapse (c :: s0) ++ [] = pyCollapse (c :: s0)
              exact List.append_nil _
            have hne : ¬ pyStrip (getTextF [Node.text (pyCollapse (c :: s0))]) = [] := by
              rw [hg]
              intro hcon
              apply hstrip
              have h1 := (strip_nil_iff_filter keepNW keepNW_ws keepNW_not _).mp hcon
              rw [collapse_filter keepNW rfl keepNW_ws] at h1
              rw [← stringOf_getText cs (c :: s0) hS] at h1
              exact (strip_nil_iff_filter keepNW keepNW_ws keepNW_not _).mpr h1
            rw [decide_eq_false hne]
            rfl
        | none =>
          rw [hS] at hp
          dsimp only at hp
          injection hp with hp
          subst hp
          show ((if ("p".data : Str) = "p".data then
              ! decide (pyStrip (getTextF (pruneF cs)) = []) else true) &&
            sigPF (pruneF cs)) = true
          rw [if_pos rfl, ih]
          have hne : ¬ pyStrip (getTextF (pruneF cs)) = [] := by
            intro hcon
            apply hstrip
            have h1 := (strip_nil_iff_filter keepNW keepNW_ws keepNW_not _).mp hcon
            rw [prune_keepNW cs] at h1
            exact (strip_nil_iff_filter keepNW keepNW_ws keepNW_not _).mpr h1
          rw [decide_eq_false hne]
          rfl
    · rw [pruneN, if_neg htp] at hp
      injection hp with hp
      subst hp
      show ((if t = "p".data then
          ! decide (pyStrip (getTextF (pruneF cs)) = []) else true) &&
        sigPF (pruneF cs)) = true
      rw [if_neg htp, ih]
      rfl
  · intro n r ihn ihr
    show sigPF
      (match pruneN n with
       | some n' => n' :: pruneF r
       | none => pruneF r) = true
    cases hn : pruneN n with
    | none => exact ihr
    | some n' =>
      dsimp only
      show (sigPN n' && sigPF (pruneF r)) = true
      rw [ihn n' hn, ihr]
      rfl

/-! ### C7 (amended): pruning of whitespace-only paragraphs

The pruning pass itself leaves no whitespace-only `p` (`prune_sigP`), and
the only later pass, the table pass, preserves that property as long as no
`p` has a `tr` descendant when the table pass runs (otherwise row
extraction can hollow out a paragraph, which is exactly the C7
counterexample).  The lemmas below push `sigPF` and `noTrUnderPF` through
every piece of the table pass. -/

theorem sigPN_elem (t : Str) (a : List (Str × Str)) (cs : List Node) :
    sigPN (.elem t a cs) =
      ((if t = "p".data then ! decide (pyStrip (getTextF cs) = []) else true) &&
        sigPF cs) := rfl

theorem sigPF_cons (n : Node) (r : List Node) :
    sigPF (n :: r) = (sigPN n && sigPF r) := rfl

theorem sigPF_append (a b : List Node) :
    sigPF (a ++ b) = (sigPF a && sigPF b) := by
  induction a with
  | nil => rfl
  | cons n r ih =>
    show (sigPN n && sigPF (r ++ b)) = ((sigPN n && sigPF r) && sigPF b)
    rw [ih, Bool.and_assoc]

theorem noTrUnderPN_elem (t : Str) (a : List (Str × Str)) (cs : List Node) :
    noTrUnderPN (.elem t a cs) =
      ((if t = "p".data then ! hasElemF "tr".data cs else true) &&
        noTrUnderPF cs) := rfl

theorem noTrUnderPF_cons (n : Node) (r : List Node) :
    noTrUnderPF (n :: r) = (noTrUnderPN n && noTrUnderPF r) := rfl

theorem noTrUnderPF_append (a b : List Node) :
    noTrUnderPF (a ++ b) = (noTrUnderPF a && noTrUnderPF b) := by
  induction a with
  | nil => rfl
  | cons n r ih =>
    show (noTrUnderPN n && noTrUnderPF (r ++ b)) =
      ((noTrUnderPN n && noTrUnderPF r) && noTrUnderPF b)
    rw [ih, Bool.and_assoc]

/-- Renaming `td` to `th` changes no text. -/
theorem getText_tdToTh : ∀ l : List Node, getTextF (tdToThF l) = getTextF l := by
  refine forestInd
    (fun n => getTextN (tdToThN n) = getTextN n)
    (fun l => getTextF (tdToThF l) = getTextF l)
    (fun _ => rfl) ?_ rfl ?_
  · intro t a cs ih
    exact ih
  · intro n r ihn ihr
    show getTextN (tdToThN n) ++ getTextF (tdToThF r) = getTextN n ++ getTextF r
    rw [ihn, ihr]

/-- Renaming `td` to `th` neither creates nor destroys a `tr`. -/
theorem hasTr_tdToTh : ∀ l : List Node,
    hasElemF "tr".data (tdToThF l) = hasElemF "tr".data l := by
  refine forestInd
    (fun n => hasElemN "tr".data (tdToThN n) = hasElemN "tr".data n)
    (fun l => hasElemF "tr".data (tdToThF l) = hasElemF "tr".data l)
    (fun _ => rfl) ?_ rfl ?_
  · intro t a cs ih
    show (decide ((if t = "td".data then "th".data else t) = "tr".data) ||
        hasElemF "tr".data (tdToThF cs)) =
      (decide (t = "tr".data) || hasElemF "tr".data cs)
    rw [ih]
    by_cases htd : t = "td".data
    · rw [if_pos htd, htd]
      rfl
    · rw [if_neg htd]
  · intro n r ihn ihr
    show (hasElemN "tr".data (tdToThN n) || hasElemF "tr".data (tdToThF r)) =
      (hasElemN "tr".data n || hasElemF "tr".data r)
    rw [ihn, ihr]

/-- Renaming `td` to `th` keeps every paragraph significant. -/
theorem sigP_tdToTh : ∀ l : List Node, sigPF l = true →
    sigPF (tdToThF l) = true := by
  refine forestInd
    (fun n => sigPN n = true → sigPN (tdToThN n) = true)
    (fun l => sigPF l = true → sigPF (tdToThF l) = true)
    (fun _ _ => rfl) ?_ (fun _ => rfl) ?_
  · intro t a cs ih h
    have h' := Bool.and_eq_true_iff.mp (show
      ((if t = "p".data then ! decide (pyStrip (getTextF cs) = []) else true) &&
        sigPF cs) = true from h)
    show ((if (if t = "td".data then "th".data else t) = "p".data then
        ! decide (pyStrip (getTextF (tdToThF cs)) = []) else true) &&
      sigPF (tdToThF cs)) = true
    rw [getText_tdToTh cs, ih h'.2]
    by_cases htd : t = "td".data
    · rw [if_pos htd, if_neg (show ¬ ("th".data : Str) = "p".data by decide)]
      rfl
    · rw [if_neg htd, h'.1]
      rfl
  · intro n r ihn ihr h
    have h' := Bool.and_eq_true_iff.mp h
    show (sigPN (tdToThN n) && sigPF (tdToThF r)) = true
    rw [ihn h'.1, ihr h'.2]
    rfl

/-- Renaming `td` to `th` keeps paragraphs row-free. -/
theorem noTrUnderP_tdToTh : ∀ l : List Node, noTrUnderPF l = true →
    noTrUnderPF (tdToThF l) = true := by
  refine forestInd
    (fun n => noTrUnderPN n = true → noTrUnderPN (tdToThN n) = true)
    (fun l => noTrUnderPF l = true → noTrUnderPF (tdToThF l) = true)
    (fun _ _ => rfl) ?_ (fun _ => rfl) ?_
  · intro t a cs ih h
    have h' := Bool.and_eq_true_iff.mp (show
      ((if t = "p".data then ! hasElemF "tr".data cs else true) &&
        noTrUnderPF cs) = true from h)
    show ((if (if t = "td".data then "th".data else t) = "p".data then
        ! hasElemF "tr".data (tdToThF cs) else true) &&
      noTrUnderPF (tdToThF cs)) = true
    rw [hasTr_tdToTh cs, ih h'.2]
    by_cases htd : t = "td".data
    · rw [if_pos htd, if_neg (show ¬ ("th".data : Str) = "p".data by decide)]
      rfl
    · rw [if_neg htd, h'.1]
      rfl
  · intro n r ihn ihr h
    have h' := Bool.and_eq_true_iff.mp h
    show (noTrUnderPN (tdToThN n) && noTrUnderPF (tdToThF r)) = true
    rw [ihn h'.1, ihr h'.2]
    rfl

/-- Removing rows is the identity on a row-free forest. -/
theorem trFree_removeTrs_id : ∀ l : List Node,
    hasElemF "tr".data l = false → removeTrsF l = l := by
  refine forestInd
    (fun n => hasElemN "tr".data n = false → removeTrsN n = [n])
    (fun l => hasElemF "tr".data l = false → removeTrsF l = l)
    (fun _ _ => rfl) ?_ (fun _ => rfl) ?_
  · intro t a cs ih h
    rw [hasElemN_elem, Bool.or_eq_false_iff] at h
    show (if t = "tr".data then [] else [Node.elem t a (removeTrsF cs)]) =
      [Node.elem t a cs]
    rw [if_neg (of_decide_eq_false h.1), ih h.2]
  · intro n r ihn ihr h
    rw [hasElemF_cons, Bool.or_eq_false_iff] at h
    show removeTrsN n ++ removeTrsF r = n :: r
    rw [ihn h.1, ihr h.2]
    rfl

/-- Renaming inside the first row is the identity on a row-free forest. -/
theorem trFree_renameFirstTr_id : ∀ l : List Node,
    hasElemF "tr".data l = false → renameFirstTrF l = l := by
  refine forestInd
    (fun n => hasElemN "tr".data n = false → renameFirstTrN n = n)
    (fun l => hasElemF "tr".data l = false → renameFirstTrF l = l)
    (fun _ _ => rfl) ?_ (fun _ => rfl) ?_
  · intro t a cs ih h
    rw [hasElemN_elem, Bool.or_eq_false_iff] at h
    show Node.elem t a (renameFirstTrF cs) = Node.elem t a cs
    rw [ih h.2]
  · intro n r ihn ihr h
    rw [hasElemF_cons, Bool.or_eq_false_iff] at h
    cases n with
    | text s =>
      show Node.text s :: renameFirstTrF r = Node.text s :: r
      rw [ihr h.2]
    | elem t a cs =>
      have h1 := h.1
      rw [hasElemN_elem, Bool.or_eq_false_iff] at h1
      show renameFirstTrF (Node.elem t a cs :: r) = Node.elem t a cs :: r
      simp only [renameFirstTrF]
      rw [if_neg (of_decide_eq_false h1.1), if_neg (by rw [h1.2]; decide), ihr h.2]

/-- Renaming inside the first row changes no text. -/
theorem getText_renameFirstTr : ∀ l : List Node,
    getTextF (renameFirstTrF l) = getTextF l := by
  refine forestInd
    (fun n => getTextN (renameFirstTrN n) = getTextN n)
    (fun l => getTextF (renameFirstTrF l) = getTextF l)
    (fun _ => rfl) ?_ rfl ?_
  · intro t a cs ih
    exact ih
  · intro n r ihn ihr
    cases n with
    | text s =>
      show s ++ getTextF (renameFirstTrF r) = s ++ getTextF r
      rw [ihr]
    | elem t a cs =>
      show getTextF (renameFirstTrF (Node.elem t a cs :: r)) =
        getTextF (Node.elem t a cs :: r)
      simp only [renameFirstTrF]
      split
      · show getTextF (tdToThF cs) ++ getTextF r = getTextF cs ++ getTextF r
        rw [getText_tdToTh]
      · split
        · show getTextN (renameFirstTrN (Node.elem t a cs)) ++ getTextF r =
            getTextN (Node.elem t a cs) ++ getTextF r
          rw [ihn]
        · show getTextF cs ++ getTextF (renameFirstTrF r) = getTextF cs ++ getTextF r
          rw [ihr]

/-- Renaming inside the first row keeps every paragraph significant. -/
theorem sigP_renameFirstTr : ∀ l : List Node, sigPF l = true →
    sigPF (renameFirstTrF l) = true := by
  refine forestInd
    (fun n => sigPN n = true → sigPN (renameFirstTrN n) = true)
    (fun l => sigPF l = true → sigPF (renameFirstTrF l) = true)
    (fun _ _ => rfl) ?_ (fun _ => rfl) ?_
  · intro t a cs ih h
    have h' := Bool.and_eq_true_iff.mp (show
      ((if t = "p".data then ! decide (pyStrip (getTextF cs) = []) else true) &&
        sigPF cs) = true from h)
    show ((if t = "p".data then
        ! decide (pyStrip (getTextF (renameFirstTrF cs)) = []) else true) &&
      sigPF (renameFirstTrF cs)) = true
    rw [getText_renameFirstTr cs, ih h'.2, h'.1]
    rfl
  · intro n r ihn ihr h
    have h' := Bool.and_eq_true_iff.mp h
    cases n with
    | text s =>
      show (sigPN (Node.text s) && sigPF (renameFirstTrF r)) = true
      rw [ihr h'.2]
      rfl
    | elem t a cs =>
      have hn := Bool.and_eq_true_iff.mp (show
        ((if t = "p".data then ! decide (pyStrip (getTextF cs) = []) else true) &&
          sigPF cs) = true from h'.1)
      show sigPF (renameFirstTrF (Node.elem t a cs :: r)) = true
      simp only [renameFirstTrF]
      split
      · rename_i htr
        show (sigPN (Node.elem t a (tdToThF cs)) && sigPF r) = true
        have hh : sigPN (Node.elem t a (tdToThF cs)) = true := by
          rw [sigPN_elem, if_neg (show ¬ t = "p".data by rw [htr]; decide),
            sigP_tdToTh cs hn.2]
          rfl
        rw [hh, h'.2]
        rfl
      · split
        · show (sigPN (renameFirstTrN (Node.elem t a cs)) && sigPF r) = true
          rw [ihn h'.1, h'.2]
          rfl
        · show (sigPN (Node.elem t a cs) && sigPF (renameFirstTrF r)) = true
          rw [h'.1, ihr h'.2]
          rfl

/-- Renaming inside the first row keeps paragraphs row-free. -/
theorem noTrUnderP_renameFirstTr : ∀ l : List Node, noTrUnderPF l = true →
    noTrUnderPF (renameFirstTrF l) = true := by
  refine forestInd
    (fun n => noTrUnderPN n = true → noTrUnderPN (renameFirstTrN n) = true)
    (fun l => noTrUnderPF l = true → noTrUnderPF (renameFirstTrF l) = true)
    (fun _ _ => rfl) ?_ (fun _ => rfl) ?_
  · intro t a cs ih h
    have h' := Bool.and_eq_true_iff.mp (show
      ((if t = "p".data then ! hasElemF "tr".data cs else true) &&
        noTrUnderPF cs) = true from h)
    show ((if t = "p".data then ! hasElemF "tr".data (renameFirstTrF cs) else true) &&
      noTrUnderPF (renameFirstTrF cs)) = true
    by_cases htp : t = "p".data
    · have hfree : hasElemF "tr".data cs = false := by
        have h1 := h'.1
        rw [if_pos htp] at h1
        simpa using h1
      rw [trFree_renameFirstTr_id cs hfree, if_pos htp, hfree, h'.2]
      rfl
    · rw [if_neg htp, ih h'.2]
      rfl
  · intro n r ihn ihr h
    have h' := Bool.and_eq_true_iff.mp h
    cases n with
    | text s =>
      show (noTrUnderPN (Node.text s) && noTrUnderPF (renameFirstTrF r)) = true
      rw [ihr h'.2]
      rfl
    | elem t a cs =>
      have hn := Bool.and_eq_true_iff.mp (show
        ((if t = "p".data then ! hasElemF "tr".data cs else true) &&
          noTrUnderPF cs) = true from h'.1)
      show noTrUnderPF (renameFirstTrF (Node.elem t a cs :: r)) = true
      simp only [renameFirstTrF]
      split
      · rename_i htr
        show (noTrUnderPN (Node.elem t a (tdToThF cs)) && noTrUnderPF r) = true
        have hh : noTrUnderPN (Node.elem t a (tdToThF cs)) = true := by
          rw [noTrUnderPN_elem, if_neg (show ¬ t = "p".data by rw [htr]; decide),
            noTrUnderP_tdToTh cs hn.2]
          rfl
        rw [hh, h'.2]
        rfl
      · split
        · show (noTrUnderPN (renameFirstTrN (Node.elem t a cs)) &&
              noTrUnderPF r) = true
          rw [ihn h'.1, h'.2]
          rfl
        · show (noTrUnderPN (Node.elem t a cs) &&
              noTrUnderPF (renameFirstTrF r)) = true
          rw [h'.1, ihr h'.2]
          rfl

/-- Removing rows keeps every paragraph significant, as long as no
paragraph has a row inside (its subtree is then untouched). -/
theorem sigP_removeTrs : ∀ l : List Node, sigPF l = true →
    noTrUnderPF l = true → sigPF (removeTrsF l) = true := by
  refine forestInd
    (fun n => sigPN n = true → noTrUnderPN n = true → sigPF (removeTrsN n) = true)
    (fun l => sigPF l = true → noTrUnderPF l = true → sigPF (removeTrsF l) = true)
    (fun _ _ _ => rfl) ?_ (fun _ _ => rfl) ?_
  · intro t a cs ih hs ht
    have hs' := Bool.and_eq_true_iff.mp (show
      ((if t = "p".data then ! decide (pyStrip (getTextF cs) = []) else true) &&
        sigPF cs) = true from hs)
    have ht' := Bool.and_eq_true_iff.mp (show
      ((if t = "p".data then ! hasElemF "tr".data cs else true) &&
        noTrUnderPF cs) = true from ht)
    show sigPF (if t = "tr".data then [] else [Node.elem t a (removeTrsF cs)]) = true
    split
    · rfl
    · rw [sigPF_cons, sigPN_elem]
      by_cases htp : t = "p".data
      · have hfree : hasElemF "tr".data cs = false := by
          have h1 := ht'.1
          rw [if_pos htp] at h1
          simpa using h1
        have h1 := hs'.1
        rw [if_pos htp] at h1
        rw [trFree_removeTrs_id cs hfree, if_pos htp, h1, hs'.2]
        rfl
      · rw [if_neg htp, ih hs'.2 ht'.2]
        rfl
  · intro n r ihn ihr hs ht
    have hs' := Bool.and_eq_true_iff.mp hs
    have ht' := Bool.and_eq_true_iff.mp ht
    show sigPF (removeTrsN n ++ removeTrsF r) = true
    rw [sigPF_append, ihn hs'.1 ht'.1, ihr hs'.2 ht'.2]
    rfl

/-- The row snapshot of a significant forest is significant. -/
theorem sigP_trs : ∀ l : List Node, sigPF l = true → sigPF (trsF l) = true := by
  refine forestInd
    (fun n => sigPN n = true → sigPF (trsN n) = true)
    (fun l => sigPF l = true → sigPF (trsF l) = true)
    (fun _ _ => rfl) ?_ (fun _ => rfl) ?_
  · intro t a cs ih h
    have h' := Bool.and_eq_true_iff.mp (show
      ((if t = "p".data then ! decide (pyStrip (getTextF cs) = []) else true) &&
        sigPF cs) = true from h)
    show sigPF ((if t = "tr".data then [Node.elem t a cs] else []) ++ trsF cs) = true
    rw [sigPF_append, ih h'.2]
    split
    · rw [sigPF_cons, h]
      rfl
    · rfl
  · intro n r ihn ihr h
    have h' := Bool.and_eq_true_iff.mp h
    show sigPF (trsN n ++ trsF r) = true
    rw [sigPF_append, ihn h'.1, ihr h'.2]
    rfl

/-- The row snapshot of a forest with row-free paragraphs again has
row-free paragraphs. -/
theorem noTrUnderP_trs : ∀ l : List Node, noTrUnderPF l = true →
    noTrUnderPF (trsF l) = true := by
  refine forestInd
    (fun n => noTrUnderPN n = true → noTrUnderPF (trsN n) = true)
    (fun l => noTrUnderPF l = true → noTrUnderPF (trsF l) = true)
    (fun _ _ => rfl) ?_ (fun _ => rfl) ?_
  · intro t a cs ih h
    have h' := Bool.and_eq_true_iff.mp (show
      ((if t = "p".data then ! hasElemF "tr".data cs else true) &&
        noTrUnderPF cs) = true from h)
    show noTrUnderPF ((if t = "tr".data then [Node.elem t a cs] else []) ++
      trsF cs) = true
    rw [noTrUnderPF_append, ih h'.2]
    split
    · rw [noTrUnderPF_cons, h]
      rfl
    · rfl
  · intro n r ihn ihr h
    have h' := Bool.and_eq_true_iff.mp h
    show noTrUnderPF (trsN n ++ trsF r) = true
    rw [noTrUnderPF_append, ihn h'.1, ihr h'.2]
    rfl

/-- Husking the collected rows keeps every paragraph significant. -/
theorem sigP_huskMap : ∀ l : List Node, sigPF l = true →
    noTrUnderPF l = true → sigPF (List.map huskTr l) = true := by
  intro l
  induction l with
  | nil => intro _ _; rfl
  | cons n r ih =>
    intro hs ht
    have hs' := Bool.and_eq_true_iff.mp hs
    have ht' := Bool.and_eq_true_iff.mp ht
    have hhead : sigPN (huskTr n) = true := by
      cases n with
      | text s => rfl
      | elem t a cs =>
        have hn := Bool.and_eq_true_iff.mp (show
          ((if t = "p".data then ! decide (pyStrip (getTextF cs) = []) else true) &&
            sigPF cs) = true from hs'.1)
        have htn := Bool.and_eq_true_iff.mp (show
          ((if t = "p".data then ! hasElemF "tr".data cs else true) &&
            noTrUnderPF cs) = true from ht'.1)
        show sigPN (Node.elem t a (removeTrsF cs)) = true
        rw [sigPN_elem]
        by_cases htp : t = "p".data
        · have hfree : hasElemF "tr".data cs = false := by
            have h1 := htn.1
            rw [if_pos htp] at h1
            simpa using h1
          have h1 := hn.1
          rw [if_pos htp] at h1
          rw [trFree_removeTrs_id cs hfree, if_pos htp, h1, hn.2]
          rfl
        · rw [if_neg htp, sigP_removeTrs cs hn.2 htn.2]
          rfl
    show (sigPN (huskTr n) && sigPF (List.map huskTr r)) = true
    rw [hhead, ih hs'.2 ht'.2]
    rfl

/-- The table pass is the identity on a row-free forest. -/
theorem trFree_fixTables_id : ∀ l : List Node,
    hasElemF "tr".data l = false → fixTablesF l = l := by
  refine forestInd
    (fun n => hasElemN "tr".data n = false → fixTablesN n = n)
    (fun l => hasElemF "tr".data l = false → fixTablesF l = l)
    (fun _ _ => rfl) ?_ (fun _ => rfl) ?_
  · intro t a cs ih h
    rw [hasElemN_elem, Bool.or_eq_false_iff] at h
    have hcond : ¬ (t = "table".data ∧ ¬ hasElemF "thead".data cs ∧
        ¬ hasElemF "tbody".data cs ∧ hasElemF "tr".data cs) := by
      intro hc
      rw [h.2] at hc
      exact absurd hc.2.2.2 (by decide)
    simp only [fixTablesN]
    rw [if_neg hcond, ih h.2]
  · intro n r ihn ihr h
    rw [hasElemF_cons, Bool.or_eq_false_iff] at h
    show fixTablesN n :: fixTablesF r = n :: r
    rw [ihn h.1, ihr h.2]

/-- The table pass keeps every paragraph significant, as long as no
paragraph has a row inside. -/
theorem sigP_fixTables : ∀ l : List Node, sigPF l = true →
    noTrUnderPF l = true → sigPF (fixTablesF l) = true := by
  refine forestInd
    (fun n => sigPN n = true → noTrUnderPN n = true → sigPN (fixTablesN n) = true)
    (fun l => sigPF l = true → noTrUnderPF l = true → sigPF (fixTablesF l) = true)
    (fun _ _ _ => rfl) ?_ (fun _ _ => rfl) ?_
  · intro t a cs ih hs ht
    have hs' := Bool.and_eq_true_iff.mp (show
      ((if t = "p".data then ! decide (pyStrip (getTextF cs) = []) else true) &&
        sigPF cs) = true from hs)
    have ht' := Bool.and_eq_true_iff.mp (show
      ((if t = "p".data then ! hasElemF "tr".data cs else true) &&
        noTrUnderPF cs) = true from ht)
    simp only [fixTablesN]
    split
    · rename_i hcond
      have htab : ¬ t = "p".data := by
        rw [hcond.1]
        decide
      have h1 : sigPF (removeTrsF (renameFirstTrF cs)) = true :=
        sigP_removeTrs _ (sigP_renameFirstTr cs hs'.2)
          (noTrUnderP_renameFirstTr cs ht'.2)
      have h3 : sigPN (Node.elem "tbody".data []
          (List.map huskTr (trsF (renameFirstTrF cs)))) = true := by
        rw [sigPN_elem, if_neg (show ¬ ("tbody".data : Str) = "p".data by decide),
          sigP_huskMap _ (sigP_trs _ (sigP_renameFirstTr cs hs'.2))
            (noTrUnderP_trs _ (noTrUnderP_renameFirstTr cs ht'.2))]
        rfl
      rw [sigPN_elem, if_neg htab, sigPF_cons, sigPF_append, sigPF_cons, h1, h3]
      rfl
    · rw [sigPN_elem]
      by_cases htp : t = "p".data
      · have hfree : hasElemF "tr".data cs = false := by
          have h1 := ht'.1
          rw [if_pos htp] at h1
          simpa using h1
        have h1 := hs'.1
        rw [if_pos htp] at h1
        rw [trFree_fixTables_id cs hfree, if_pos htp, h1, hs'.2]
        rfl
      · rw [if_neg htp, ih hs'.2 ht'.2]
        rfl
  · intro n r ihn ihr hs ht
    have hs' := Bool.and_eq_true_iff.mp hs
    have ht' := Bool.and_eq_true_iff.mp ht
    show (sigPN (fixTablesN n) && sigPF (fixTablesF r)) = true
    rw [ihn hs'.1 ht'.1, ihr hs'.2 ht'.2]
    rfl

/-- C7 (amended): the pruning pass removes every `p` whose whole text
strips to the empty string and collapses the text of a `p` holding a
single text run (strip plus whitespace collapse); the full pipeline ends
with no whitespace-only `p` provided no `p` has a `tr` descendant when the
table pass runs.  Without that proviso the table pass can hollow a
paragraph out again (theorem `c7_counterexample`). -/
theorem c7_pruning_amended :
    (∀ f : List Node, noTrUnderPF (preTables f) = true →
      sigPF (filter_html f) = true) ∧
    (∀ (a : List (Str × Str)) (s : Str), pyStrip s ≠ [] →
      pruneN (.elem "p".data a [.text s]) =
        some (.elem "p".data a [.text (pyCollapse s)])) ∧
    (∀ (a : List (Str × Str)) (s : Str), pyStrip s = [] →
      pruneN (.elem "p".data a [.text s]) = none) := by
  refine ⟨?_, ?_, ?_⟩
  · intro f h
    exact sigP_fixTables (preTables f) (prune_sigP _) h
  · intro a s hs
    cases s with
    | nil => exact absurd rfl hs
    | cons c s0 =>
      have hg : getTextF [Node.text (c :: s0)] = c :: s0 := List.append_nil _
      simp only [pruneN]
      rw [if_pos trivial, hg, if_neg hs]
      rfl
  · intro a s hs
    have hg : getTextF [Node.text s] = s := List.append_nil _
    simp only [pruneN]
    rw [if_pos trivial, hg, if_pos hs]

/-- Witness for the amended C7 theorem: the table document keeps its
(trivially significant) paragraphs, a stripped paragraph is collapsed, a
blank one removed. -/
theorem c7_pruning_amended_witness :
    sigPF (filter_html docTableAB) = true ∧
    pruneN (.elem "p".data [] [.text " x ".data]) =
      some (.elem "p".data [] [.text (pyCollapse " x ".data)]) ∧
    pruneN (.elem "p".data [] [.text "  ".data]) = none :=
  ⟨c7_pruning_amended.1 docTableAB (by decide),
   c7_pruning_amended.2.1 [] " x ".data (by decide),
   c7_pruning_amended.2.2 [] "  ".data (by decide)⟩

/-! ### C2 (amended): character preservation

The filter destroys no printable content character (non-whitespace and not
an emphasis marker) provided every list carries its significant text
inside `li` items (`goodListsF`; stray list text is destroyed, which claim
C2\x27s counterexample exhibits).  Each pass preserves the multiset
`sigF keepC2`. -/

theorem sigN_elem (keep : Char → Bool) (t : Str) (a : List (Str × Str))
    (cs : List Node) : sigN keep (.elem t a cs) = sigF keep cs := rfl

theorem sigF_consm (keep : Char → Bool) (n : Node) (r : List Node) :
    sigF keep (n :: r) = sigN keep n + sigF keep r := rfl

theorem sigF_appendm (keep : Char → Bool) (a b : List Node) :
    sigF keep (a ++ b) = sigF keep a + sigF keep b := by
  induction a with
  | nil =>
    show sigF keep b = 0 + sigF keep b
    rw [zero_add]
  | cons n r ih =>
    show sigN keep n + sigF keep (r ++ b) = (sigN keep n + sigF keep r) + sigF keep b
    rw [ih, add_assoc]

theorem sigF_reverse (keep : Char → Bool) : ∀ l : List Node,
    sigF keep l.reverse = sigF keep l := by
  intro l
  induction l with
  | nil => rfl
  | cons n r ih =>
    rw [List.reverse_cons, sigF_appendm, ih]
    show sigF keep r + (sigN keep n + 0) = sigF keep (n :: r)
    show sigF keep r + (sigN keep n + 0) = sigN keep n + sigF keep r
    rw [add_zero, add_comm]

/-- A subtree whose whole text strips to nothing carries no kept character,
for a filter that keeps no whitespace. -/
theorem sig_zero_of_strip_nil (keep : Char → Bool)
    (hkw : ∀ c, pyWs c = true → keep c = false) (l : List Node)
    (h : pyStrip (getTextF l) = []) : sigF keep l = 0 := by
  rw [sig_getText]
  have hall := (strip_nil_iff _).mp h
  have hnil : (getTextF l).filter keep = [] :=
    List.filter_eq_nil_iff.mpr (fun c hc => by simp [hkw c (hall c hc)])
  rw [sigStr, hnil]
  rfl

/-- Dropping a front segment of discarded characters changes no filter. -/
theorem filter_drop_of_take (keep : Char → Bool) (n : Nat) (v : Str)
    (h : ∀ c ∈ v.take n, keep c = false) :
    (v.drop n).filter keep = v.filter keep := by
  have h0 : (v.take n).filter keep = [] :=
    List.filter_eq_nil_iff.mpr (fun c hc => by simp [h c hc])
  conv_rhs => rw [← List.take_append_drop n v]
  rw [List.filter_append, h0, List.nil_append]

theorem stars_take_two (v w : Str) (h : v ++ [Char.ofNat 42, Char.ofNat 42] =
    Char.ofNat 42 :: Char.ofNat 42 :: w) :
    ∀ c ∈ v.take 2, c = Char.ofNat 42 := by
  intro c hc
  cases v with
  | nil => cases hc
  | cons c1 v1 =>
    cases v1 with
    | nil =>
      injection h with h1 h2
      have hc1 : c = c1 := by simpa using hc
      rw [hc1, h1]
    | cons c2 v2 =>
      injection h with h1 h2
      injection h2 with h2 h3
      have hc1 : c = c1 ∨ c = c2 := by simpa using hc
      rcases hc1 with h4 | h4
      · rw [h4, h1]
      · rw [h4, h2]

theorem stars_take_one (v w : Str) (h : v ++ [Char.ofNat 42] =
    Char.ofNat 42 :: w) : ∀ c ∈ v.take 1, c = Char.ofNat 42 := by
  intro c hc
  cases v with
  | nil => cases hc
  | cons c1 v1 =>
    injection h with h1 h2
    have hc1 : c = c1 := by simpa using hc
    rw [hc1, h1]

/-- Stripping the double-star markers removes only discarded characters. -/
theorem em_star_filter (keep : Char → Bool) (hstar : keep (Char.ofNat 42) = false)
    (s : Str) (hpre : pyStarts "**".data s = true)
    (hsuf : pyEnds "**".data s = true) :
    (pyDropRight 2 (pyDrop 2 s)).filter keep = s.filter keep := by
  obtain ⟨m, rfl⟩ : ∃ m, s = Char.ofNat 42 :: Char.ofNat 42 :: m := by
    obtain ⟨t, ht⟩ := List.isPrefixOf_iff_prefix.mp hpre
    exact ⟨t, ht.symm⟩
  obtain ⟨w, hw⟩ := List.isPrefixOf_iff_prefix.mp hsuf
  have hrev : m.reverse ++ [Char.ofNat 42, Char.ofNat 42] =
      Char.ofNat 42 :: Char.ofNat 42 :: w := by
    have h1 : (Char.ofNat 42 :: Char.ofNat 42 :: m).reverse =
        m.reverse ++ [Char.ofNat 42, Char.ofNat 42] := by simp
    rw [h1] at hw
    exact hw.symm
  have hstars := stars_take_two m.reverse w hrev
  have hd : pyDrop 2 (Char.ofNat 42 :: Char.ofNat 42 :: m) = m := rfl
  rw [hd]
  simp only [pyDropRight]
  rw [List.filter_reverse, filter_drop_of_take keep 2 m.reverse
      (fun c hc => by rw [hstars c hc]; exact hstar),
    List.filter_reverse, List.reverse_reverse]
  show m.filter keep = (Char.ofNat 42 :: Char.ofNat 42 :: m).filter keep
  simp [List.filter_cons, hstar]

/-- Stripping the single-star markers removes only discarded characters. -/
theorem strong_star_filter (keep : Char → Bool)
    (hstar : keep (Char.ofNat 42) = false) (s : Str)
    (hpre : pyStarts "*".data s = true) (hsuf : pyEnds "*".data s = true) :
    (pyDropRight 1 (pyDrop 1 s)).filter keep = s.filter keep := by
  obtain ⟨m, rfl⟩ : ∃ m, s = Char.ofNat 42 :: m := by
    obtain ⟨t, ht⟩ := List.isPrefixOf_iff_prefix.mp hpre
    exact ⟨t, ht.symm⟩
  obtain ⟨w, hw⟩ := List.isPrefixOf_iff_prefix.mp hsuf
  have hrev : m.reverse ++ [Char.ofNat 42] = Char.ofNat 42 :: w := by
    have h1 : (Char.ofNat 42 :: m).reverse = m.reverse ++ [Char.ofNat 42] := by simp
    rw [h1] at hw
    exact hw.symm
  have hstars := stars_take_one m.reverse w hrev
  have hd : pyDrop 1 (Char.ofNat 42 :: m) = m := rfl
  rw [hd]
  simp only [pyDropRight]
  rw [List.filter_reverse, filter_drop_of_take keep 1 m.reverse
      (fun c hc => by rw [hstars c hc]; exact hstar),
    List.filter_reverse, List.reverse_reverse]
  show m.filter keep = (Char.ofNat 42 :: m).filter keep
  simp [List.filter_cons, hstar]

/-- One half of the first pass\x27s accounting: with no stray text, the
generated paragraphs carry exactly the kept characters; and item content
splits between the item\x27s own paragraph and the paragraphs of nested
items. -/
theorem lists_sig_split : ∀ l : List Node, goodListsF l = true →
    strayF keepC2 l + sigF keepC2 (liPsF l) = sigF keepC2 l ∧
    sigF keepC2 (stripInnerF l) + sigF keepC2 (liPsF l) = sigF keepC2 l := by
  refine forestInd
    (fun n => goodListsN n = true →
      strayN keepC2 n + sigF keepC2 (liPsN n) = sigN keepC2 n ∧
      sigF keepC2 (stripInnerN n) + sigF keepC2 (liPsN n) = sigN keepC2 n)
    (fun l => goodListsF l = true →
      strayF keepC2 l + sigF keepC2 (liPsF l) = sigF keepC2 l ∧
      sigF keepC2 (stripInnerF l) + sigF keepC2 (liPsF l) = sigF keepC2 l)
    ?_ ?_ ?_ ?_
  · intro s _
    constructor
    · show sigStr keepC2 s + 0 = sigStr keepC2 s
      rw [add_zero]
    · show (sigStr keepC2 s + 0) + 0 = sigStr keepC2 s
      rw [add_zero, add_zero]
  · intro t a cs ih h
    have h' := Bool.and_eq_true_iff.mp (show
      ((if t = "ul".data ∨ t = "ol".data then decide (strayF keepC2 cs = 0)
        else true) && goodListsF cs) = true from h)
    obtain ⟨ihF, ihS⟩ := ih h'.2
    constructor
    · show (if t = "li".data then 0 else strayF keepC2 cs) +
        sigF keepC2 ((if t = "li".data then
          [Node.elem "p".data [] (stripInnerF cs)] else []) ++ liPsF cs) =
        sigF keepC2 cs
      rw [sigF_appendm]
      by_cases hli : t = "li".data
      · rw [if_pos hli, if_pos hli]
        show 0 + ((sigF keepC2 (stripInnerF cs) + 0) + sigF keepC2 (liPsF cs)) =
          sigF keepC2 cs
        rw [zero_add, add_zero]
        exact ihS
      · rw [if_neg hli, if_neg hli]
        show strayF keepC2 cs + (0 + sigF keepC2 (liPsF cs)) = sigF keepC2 cs
        rw [zero_add]
        exact ihF
    · show sigF keepC2 (if t = "li".data then [Node.elem t a []]
          else if t = "ul".data ∨ t = "ol".data then
            List.replicate (countLiF cs) (Node.elem "p".data [] [])
          else [Node.elem t a (stripInnerF cs)]) +
        sigF keepC2 ((if t = "li".data then
          [Node.elem "p".data [] (stripInnerF cs)] else []) ++ liPsF cs) =
        sigF keepC2 cs
      rw [sigF_appendm]
      by_cases hli : t = "li".data
      · rw [if_pos hli, if_pos hli]
        show (0 + 0) + ((sigF keepC2 (stripInnerF cs) + 0) + sigF keepC2 (liPsF cs)) =
          sigF keepC2 cs
        simp only [zero_add, add_zero]
        exact ihS
      · by_cases hul : t = "ul".data ∨ t = "ol".data
        · rw [if_neg hli, if_pos hul, if_neg hli]
          have hstray : strayF keepC2 cs = 0 := by
            have h1 := h'.1
            rw [if_pos hul] at h1
            exact of_decide_eq_true h1
          have hrep : sigF keepC2 (List.replicate (countLiF cs)
              (Node.elem "p".data [] [])) = 0 := by
            induction countLiF cs with
            | zero => rfl
            | succ k ihk =>
              show sigN keepC2 (Node.elem "p".data [] []) +
                sigF keepC2 (List.replicate k (Node.elem "p".data [] [])) = 0
              rw [ihk]
              rfl
          rw [hrep]
          show (0 : Multiset Char) + (0 + sigF keepC2 (liPsF cs)) = sigF keepC2 cs
          rw [zero_add, zero_add]
          have hF := ihF
          rw [hstray, zero_add] at hF
          exact hF
        · rw [if_neg hli, if_neg hul, if_neg hli]
          show (sigF keepC2 (stripInnerF cs) + 0) + (0 + sigF keepC2 (liPsF cs)) =
            sigF keepC2 cs
          simp only [zero_add, add_zero]
          exact ihS
  · intro _
    exact ⟨by show (0 : Multiset Char) + 0 = 0; rw [add_zero],
      by show (0 : Multiset Char) + 0 = 0; rw [add_zero]⟩
  · intro n r ihn ihr h
    have h' := Bool.and_eq_true_iff.mp h
    obtain ⟨n1, n2⟩ := ihn h'.1
    obtain ⟨r1, r2⟩ := ihr h'.2
    constructor
    · show (strayN keepC2 n + strayF keepC2 r) +
        sigF keepC2 (liPsN n ++ liPsF r) = sigN keepC2 n + sigF keepC2 r
      rw [sigF_appendm, add_add_add_comm, n1, r1]
    · show sigF keepC2 (stripInnerN n ++ stripInnerF r) +
        sigF keepC2 (liPsN n ++ liPsF r) = sigN keepC2 n + sigF keepC2 r
      rw [sigF_appendm, sigF_appendm, add_add_add_comm, n2, r2]

/-- The first pass preserves the kept characters of a forest whose lists
carry no stray text. -/
theorem sig_handleLists : ∀ l : List Node, goodListsF l = true →
    sigF keepC2 (handleListsF l) = sigF keepC2 l := by
  refine forestInd
    (fun n => goodListsN n = true → sigF keepC2 (handleListsN n) = sigN keepC2 n)
    (fun l => goodListsF l = true → sigF keepC2 (handleListsF l) = sigF keepC2 l)
    ?_ ?_ (fun _ => rfl) ?_
  · intro s _
    show sigStr keepC2 s + 0 = sigStr keepC2 s
    rw [add_zero]
  · intro t a cs ih h
    have h' := Bool.and_eq_true_iff.mp (show
      ((if t = "ul".data ∨ t = "ol".data then decide (strayF keepC2 cs = 0)
        else true) && goodListsF cs) = true from h)
    show sigF keepC2 (if t = "ul".data ∨ t = "ol".data then (liPsF cs).reverse
        else [Node.elem t a (handleListsF cs)]) = sigF keepC2 cs
    by_cases hul : t = "ul".data ∨ t = "ol".data
    · rw [if_pos hul, sigF_reverse]
      have hstray : strayF keepC2 cs = 0 := by
        have h1 := h'.1
        rw [if_pos hul] at h1
        exact of_decide_eq_true h1
      have hF := (lists_sig_split cs h'.2).1
      rw [hstray, zero_add] at hF
      exact hF
    · rw [if_neg hul]
      show sigF keepC2 (handleListsF cs) + 0 = sigF keepC2 cs
      rw [add_zero]
      exact ih h'.2
  · intro n r ihn ihr h
    have h' := Bool.and_eq_true_iff.mp h
    show sigF keepC2 (handleListsN n ++ handleListsF r) =
      sigN keepC2 n + sigF keepC2 r
    rw [sigF_appendm, ihn h'.1, ihr h'.2]

/-- The normalization pass preserves the kept characters: renames keep the
subtree, and a replacement paragraph carries the full `get_text()` (empty
only when that text had no kept character at all). -/
theorem sig_normalize : ∀ l : List Node,
    sigF keepC2 (normalizeF l) = sigF keepC2 l := by
  refine forestInd
    (fun n => sigN keepC2 (normalizeN n) = sigN keepC2 n)
    (fun l => sigF keepC2 (normalizeF l) = sigF keepC2 l)
    (fun _ => rfl) ?_ rfl ?_
  · intro t a cs ih
    simp only [normalizeN]
    cases hA : lookup ALLOWED_TAGS t with
    | some wl =>
      show sigF keepC2 (normalizeF cs) = sigF keepC2 cs
      exact ih
    | none =>
      cases hR : lookup TAG_REPLACEMENTS t with
      | some t2 =>
        show sigF keepC2 (normalizeF cs) = sigF keepC2 cs
        exact ih
      | none =>
        show sigN keepC2 (if pyStrip (getTextF cs) = [] then
            Node.elem "p".data [] []
          else Node.elem "p".data [] [Node.text (getTextF cs)]) = sigF keepC2 cs
        split
        · rename_i hstrip
          show (0 : Multiset Char) = sigF keepC2 cs
          exact (sig_zero_of_strip_nil keepC2 keepC2_ws cs hstrip).symm
        · show sigStr keepC2 (getTextF cs) + 0 = sigF keepC2 cs
          rw [add_zero, ← sig_getText]
  · intro n r ihn ihr
    show sigN keepC2 (normalizeN n) + sigF keepC2 (normalizeF r) =
      sigN keepC2 n + sigF keepC2 r
    rw [ihn, ihr]

/-- The paragraph-flattening pass only moves subtrees: kept characters are
preserved, and the kept/hoisted split of a forest is exact. -/
theorem sig_clean_split : ∀ l : List Node,
    sigF keepC2 (cleanF l) = sigF keepC2 l ∧
    sigF keepC2 (cleanKeepF l) + sigF keepC2 (cleanHoistF l) = sigF keepC2 l := by
  refine forestInd
    (fun n => sigN keepC2 (cleanN n) = sigN keepC2 n ∧
      sigF keepC2 (if isNonemptyP n then ([] : List Node) else [cleanN n]) +
        sigF keepC2 (cleanHoistN n) = sigN keepC2 n)
    (fun l => sigF keepC2 (cleanF l) = sigF keepC2 l ∧
      sigF keepC2 (cleanKeepF l) + sigF keepC2 (cleanHoistF l) = sigF keepC2 l)
    ?_ ?_ ?_ ?_
  · intro s
    constructor
    · rfl
    · show (sigStr keepC2 s + 0) + 0 = sigStr keepC2 s
      rw [add_zero, add_zero]
  · intro t a cs ih
    obtain ⟨ih1, ih2⟩ := ih
    have hmain : sigN keepC2 (cleanN (Node.elem t a cs)) = sigF keepC2 cs := by
      show sigN keepC2 (if t = "p".data then
          Node.elem t a (cleanKeepF cs ++ cleanHoistF cs)
        else Node.elem t a (cleanF cs)) = sigF keepC2 cs
      split
      · show sigF keepC2 (cleanKeepF cs ++ cleanHoistF cs) = sigF keepC2 cs
        rw [sigF_appendm]
        exact ih2
      · exact ih1
    constructor
    · exact hmain
    · by_cases hne : isNonemptyP (Node.elem t a cs) = true
      · rw [if_pos hne]
        have ht : t = "p".data ∧ cs ≠ [] := by
          cases cs with
          | nil => exact absurd hne Bool.false_ne_true
          | cons c cr =>
            exact ⟨of_decide_eq_true hne, by simp⟩
        show (0 : Multiset Char) + sigF keepC2 (if t = "p".data then
            (if cs.isEmpty then [] else cleanF cs) else []) = sigF keepC2 cs
        have hie : cs.isEmpty = false := by
          cases cs with
          | nil => exact absurd rfl ht.2
          | cons c cr => rfl
        rw [zero_add, if_pos ht.1,
          if_neg (show ¬ cs.isEmpty = true from fun hx =>
            Bool.false_ne_true (hie ▸ hx))]
        exact ih1
      · rw [if_neg hne]
        have hh : cleanHoistN (Node.elem t a cs) = [] := by
          show (if t = "p".data then (if cs.isEmpty then [] else cleanF cs)
            else []) = []
          by_cases htp : t = "p".data
          · rw [if_pos htp]
            cases cs with
            | nil => rfl
            | cons c cr =>
              exfalso
              exact hne (decide_eq_true htp)
          · rw [if_neg htp]
        rw [hh]
        show (sigN keepC2 (cleanN (Node.elem t a cs)) + 0) + 0 = sigF keepC2 cs
        rw [add_zero, add_zero]
        exact hmain
  · exact ⟨rfl, by show (0 : Multiset Char) + 0 = 0; rw [add_zero]⟩
  · intro n r ihn ihr
    obtain ⟨hn1, hn2⟩ := ihn
    obtain ⟨hr1, hr2⟩ := ihr
    constructor
    · show sigN keepC2 (cleanN n) + sigF keepC2 (cleanF r) =
        sigN keepC2 n + sigF keepC2 r
      rw [hn1, hr1]
    · show sigF keepC2 ((if isNonemptyP n then ([] : List Node) else [cleanN n]) ++
          cleanKeepF r) +
        sigF keepC2 (cleanHoistN n ++ cleanHoistF r) =
        sigN keepC2 n + sigF keepC2 r
      rw [sigF_appendm, sigF_appendm, add_add_add_comm, hn2, hr2]

/-- The emphasis-marker pass preserves the kept characters: a rewritten
`em`/`strong` loses only its surrounding asterisks, which `keepC2`
discards anyway. -/
theorem sig_fixFormat : ∀ l : List Node,
    sigF keepC2 (fixFormatF l) = sigF keepC2 l := by
  refine forestInd
    (fun n => sigN keepC2 (fixFormatN n) = sigN keepC2 n)
    (fun l => sigF keepC2 (fixFormatF l) = sigF keepC2 l)
    (fun _ => rfl) ?_ rfl ?_
  · intro t a cs ih
    simp only [fixFormatN]
    split
    · cases hS : stringOfF cs with
      | some s =>
        dsimp only
        by_cases hne : s ≠ []
        · rw [if_pos hne]
          by_cases hem : t = "em".data ∧ pyStarts "**".data s = true ∧
              pyEnds "**".data s = true
          · rw [if_pos hem]
            show sigStr keepC2 (pyDropRight 2 (pyDrop 2 s)) + 0 = sigF keepC2 cs
            rw [add_zero, sig_getText keepC2 cs, stringOf_getText cs s hS]
            simp only [sigStr]
            rw [em_star_filter keepC2 (by decide) s hem.2.1 hem.2.2]
          · rw [if_neg hem]
            by_cases hstr : t = "strong".data ∧ pyStarts "*".data s = true ∧
                pyEnds "*".data s = true ∧ ¬ pyStarts "**".data s = true
            · rw [if_pos hstr]
              show sigStr keepC2 (pyDropRight 1 (pyDrop 1 s)) + 0 = sigF keepC2 cs
              rw [add_zero, sig_getText keepC2 cs, stringOf_getText cs s hS]
              simp only [sigStr]
              rw [strong_star_filter keepC2 (by decide) s hstr.2.1 hstr.2.2.1]
            · rw [if_neg hstr]
              show sigF keepC2 (fixFormatF cs) = sigF keepC2 cs
              exact ih
        · rw [if_neg hne]
          show sigF keepC2 (fixFormatF cs) = sigF keepC2 cs
          exact ih
      | none =>
        show sigF keepC2 (fixFormatF cs) = sigF keepC2 cs
        exact ih
    · show sigF keepC2 (fixFormatF cs) = sigF keepC2 cs
      exact ih
  · intro n r ihn ihr
    show sigN keepC2 (fixFormatN n) + sigF keepC2 (fixFormatF r) =
      sigN keepC2 n + sigF keepC2 r
    rw [ihn, ihr]

/-- The pruning pass preserves the kept characters: decomposed paragraphs
had only whitespace, and the collapse rewrites only whitespace. -/
theorem sig_prune : ∀ l : List Node, sigF keepC2 (pruneF l) = sigF keepC2 l := by
  refine forestInd
    (fun n => (∀ n', pruneN n = some n' → sigN keepC2 n' = sigN keepC2 n) ∧
      (pruneN n = none → sigN keepC2 n = 0))
    (fun l => sigF keepC2 (pruneF l) = sigF keepC2 l)
    ?_ ?_ rfl ?_
  · intro s
    constructor
    · intro n' h
      injection h with h
      subst h
      rfl
    · intro h
      cases h
  · intro t a cs ih
    constructor
    · intro n' hp
      by_cases htp : t = "p".data
      · subst htp
        rw [pruneN, if_pos rfl] at hp
        split at hp
        · cases hp
        · cases hS : stringOfF cs with
          | some s0 =>
            rw [hS] at hp
            cases s0 with
            | nil =>
              dsimp only at hp
              injection hp with hp
              subst hp
              show sigF keepC2 (pruneF cs) = sigF keepC2 cs
              exact ih
            | cons c s0 =>
              dsimp only at hp
              injection hp with hp
              subst hp
              show sigStr keepC2 (pyCollapse (c :: s0)) + 0 = sigF keepC2 cs
              rw [add_zero, sig_getText keepC2 cs,
                stringOf_getText cs (c :: s0) hS]
              simp only [sigStr]
              rw [collapse_filter keepC2 rfl keepC2_ws]
          | none =>
            rw [hS] at hp
            dsimp only at hp
            injection hp with hp
            subst hp
            show sigF keepC2 (pruneF cs) = sigF keepC2 cs
            exact ih
      · rw [pruneN, if_neg htp] at hp
        injection hp with hp
        subst hp
        show sigF keepC2 (pruneF cs) = sigF keepC2 cs
        exact ih
    · intro hp
      by_cases htp : t = "p".data
      · subst htp
        rw [pruneN, if_pos rfl] at hp
        split at hp
        · rename_i hstrip
          show sigF keepC2 cs = 0
          exact sig_zero_of_strip_nil keepC2 keepC2_ws cs hstrip
        · cases hS : stringOfF cs with
          | some s0 =>
            rw [hS] at hp
            cases s0 with
            | nil => cases hp
            | cons c s0 => cases hp
          | none =>
            rw [hS] at hp
            cases hp
      · rw [pruneN, if_neg htp] at hp
        cases hp
  · intro n r ihn ihr
    show sigF keepC2
      (match pruneN n with
       | some n' => n' :: pruneF r
       | none => pruneF r) = sigN keepC2 n + sigF keepC2 r
    cases hn : pruneN n with
    | none =>
      rw [ihn.2 hn, zero_add]
      exact ihr
    | some n' =>
      dsimp only
      show sigN keepC2 n' + sigF keepC2 (pruneF r) = sigN keepC2 n + sigF keepC2 r
      rw [ihn.1 n' hn, ihr]

/-- Renaming inside the first row preserves the kept characters. -/
theorem sig_renameFirstTr (l : List Node) :
    sigF keepC2 (renameFirstTrF l) = sigF keepC2 l := by
  rw [sig_getText keepC2 (renameFirstTrF l), sig_getText keepC2 l,
    getText_renameFirstTr l]

/-- Every character is owned by the innermost row containing it (or by no
row): removal plus the husked row snapshot is an exact split. -/
theorem sig_tablePartition : ∀ l : List Node,
    sigF keepC2 (removeTrsF l) + sigF keepC2 (List.map huskTr (trsF l)) =
      sigF keepC2 l := by
  refine forestInd
    (fun n => sigF keepC2 (removeTrsN n) +
      sigF keepC2 (List.map huskTr (trsN n)) = sigN keepC2 n)
    (fun l => sigF keepC2 (removeTrsF l) +
      sigF keepC2 (List.map huskTr (trsF l)) = sigF keepC2 l)
    ?_ ?_ ?_ ?_
  · intro s
    show (sigStr keepC2 s + 0) + 0 = sigStr keepC2 s
    rw [add_zero, add_zero]
  · intro t a cs ih
    show sigF keepC2 (if t = "tr".data then []
        else [Node.elem t a (removeTrsF cs)]) +
      sigF keepC2 (List.map huskTr
        ((if t = "tr".data then [Node.elem t a cs] else []) ++ trsF cs)) =
      sigF keepC2 cs
    by_cases htr : t = "tr".data
    · rw [if_pos htr, if_pos htr]
      show (0 : Multiset Char) + (sigF keepC2 (removeTrsF cs) +
        sigF keepC2 (List.map huskTr (trsF cs))) = sigF keepC2 cs
      rw [zero_add]
      exact ih
    · rw [if_neg htr, if_neg htr]
      show (sigF keepC2 (removeTrsF cs) + 0) +
        sigF keepC2 (List.map huskTr (trsF cs)) = sigF keepC2 cs
      rw [add_zero]
      exact ih
  · show (0 : Multiset Char) + 0 = 0
    rw [add_zero]
  · intro n r ihn ihr
    show sigF keepC2 (removeTrsN n ++ removeTrsF r) +
      sigF keepC2 (List.map huskTr (trsN n ++ trsF r)) =
      sigN keepC2 n + sigF keepC2 r
    rw [List.map_append, sigF_appendm, sigF_appendm, add_add_add_comm, ihn, ihr]

/-- The table pass preserves the kept characters. -/
theorem sig_fixTables : ∀ l : List Node,
    sigF keepC2 (fixTablesF l) = sigF keepC2 l := by
  refine forestInd
    (fun n => sigN keepC2 (fixTablesN n) = sigN keepC2 n)
    (fun l => sigF keepC2 (fixTablesF l) = sigF keepC2 l)
    (fun _ => rfl) ?_ rfl ?_
  · intro t a cs ih
    simp only [fixTablesN]
    split
    · show sigF keepC2 (Node.elem "thead".data [] [] ::
        (removeTrsF (renameFirstTrF cs) ++
          [Node.elem "tbody".data []
            (List.map huskTr (trsF (renameFirstTrF cs)))])) = sigF keepC2 cs
      rw [sigF_consm, sigF_appendm, sigF_consm]
      show (0 : Multiset Char) + (sigF keepC2 (removeTrsF (renameFirstTrF cs)) +
        (sigF keepC2 (List.map huskTr (trsF (renameFirstTrF cs))) + 0)) =
        sigF keepC2 cs
      rw [zero_add, add_zero, sig_tablePartition, sig_renameFirstTr]
    · show sigF keepC2 (fixTablesF cs) = sigF keepC2 cs
      exact ih
  · intro n r ihn ihr
    show sigN keepC2 (fixTablesN n) + sigF keepC2 (fixTablesF r) =
      sigN keepC2 n + sigF keepC2 r
    rw [ihn, ihr]

/-- C2 (amended): the filter never destroys printable content characters
(non-whitespace and not an emphasis marker), as a multiset, provided every
list of the input carries all such characters inside its `li` items.
Stray list text is destroyed (theorem `c2_counterexample`), hence the
proviso. -/
theorem c2_character_preservation_amended : ∀ f : List Node,
    goodListsF f = true → sigF keepC2 (filter_html f) = sigF keepC2 f := by
  intro f h
  show sigF keepC2 (fixTablesF (pruneF (fixFormatF (cleanF (normalizeF
    (handleListsF f)))))) = sigF keepC2 f
  rw [sig_fixTables, sig_prune, sig_fixFormat,
    (sig_clean_split (normalizeF (handleListsF f))).1, sig_normalize,
    sig_handleLists f h]

/-- Witness for the amended C2 theorem at the two-item list document. -/
theorem c2_character_preservation_amended_witness :
    goodListsF docListOneTwo = true ∧
    sigF keepC2 (filter_html docListOneTwo) = sigF keepC2 docListOneTwo :=
  ⟨by decide, c2_character_preservation_amended docListOneTwo (by decide)⟩

/-! ### C6 (amended): idempotence on canonical trees

The marker fix is not idempotent in general (`c6_counterexample`), but on
a tree already in the pipeline\x27s canonical shape every pass is the
identity, so a second application of `filter_html` changes nothing
whenever the first application lands in that shape. -/

theorem canonicalN_parts (t : Str) (a : List (Str × Str)) (cs : List Node)
    (h : canonicalN (.elem t a cs) = true) :
    (match lookup ALLOWED_TAGS t with
     | some wl => a.all (fun kv => wl.contains kv.1)
     | none => false) = true ∧
    (if t = "p".data then canonP cs else true) = true ∧
    (if t = "em".data then ! emBad cs else true) = true ∧
    (if t = "strong".data then ! strongBad cs else true) = true ∧
    (if t = "table".data then
       hasElemF "thead".data cs || hasElemF "tbody".data cs ||
         ! hasElemF "tr".data cs
     else true) = true ∧
    canonicalF cs = true := by
  have p6 := Bool.and_eq_true_iff.mp h
  have p5 := Bool.and_eq_true_iff.mp p6.1
  have p4 := Bool.and_eq_true_iff.mp p5.1
  have p3 := Bool.and_eq_true_iff.mp p4.1
  have p2 := Bool.and_eq_true_iff.mp p3.1
  exact ⟨p2.1, p2.2, p3.2, p4.2, p5.2, p6.2⟩

/-- The first pass is the identity on canonical forests (no list tags are
in the approved vocabulary). -/
theorem handleLists_id : ∀ l : List Node, canonicalF l = true →
    handleListsF l = l := by
  refine forestInd
    (fun n => canonicalN n = true → handleListsN n = [n])
    (fun l => canonicalF l = true → handleListsF l = l)
    (fun _ _ => rfl) ?_ (fun _ => rfl) ?_
  · intro t a cs ih h
    have hp := canonicalN_parts t a cs h
    have hul : ¬ (t = "ul".data ∨ t = "ol".data) := by
      intro hc
      have p1 := hp.1
      rcases hc with hc | hc
      · rw [hc] at p1
        exact Bool.false_ne_true p1
      · rw [hc] at p1
        exact Bool.false_ne_true p1
    show (if t = "ul".data ∨ t = "ol".data then (liPsF cs).reverse
      else [Node.elem t a (handleListsF cs)]) = [Node.elem t a cs]
    rw [if_neg hul, ih hp.2.2.2.2.2]
  · intro n r ihn ihr h
    have h' := Bool.and_eq_true_iff.mp h
    show handleListsN n ++ handleListsF r = n :: r
    rw [ihn h'.1, ihr h'.2]
    rfl

/-- The normalization pass is the identity on canonical forests. -/
theorem normalize_id : ∀ l : List Node, canonicalF l = true →
    normalizeF l = l := by
  refine forestInd
    (fun n => canonicalN n = true → normalizeN n = n)
    (fun l => canonicalF l = true → normalizeF l = l)
    (fun _ _ => rfl) ?_ (fun _ => rfl) ?_
  · intro t a cs ih h
    have hp := canonicalN_parts t a cs h
    obtain ⟨wl, hA, hall⟩ : ∃ wl, lookup ALLOWED_TAGS t = some wl ∧
        a.all (fun kv => wl.contains kv.1) = true := by
      have p := hp.1
      cases hA : lookup ALLOWED_TAGS t with
      | none =>
        rw [hA] at p
        exact absurd p Bool.false_ne_true
      | some wl =>
        rw [hA] at p
        exact ⟨wl, rfl, p⟩
    simp only [normalizeN]
    rw [hA]
    dsimp only
    rw [List.filter_eq_self.mpr (List.all_eq_true.mp hall), ih hp.2.2.2.2.2]
  · intro n r ihn ihr h
    have h' := Bool.and_eq_true_iff.mp h
    show normalizeN n :: normalizeF r = n :: r
    rw [ihn h'.1, ihr h'.2]

theorem cleanHoistN_nil (n : Node) (h : isNonemptyP n = false) :
    cleanHoistN n = [] := by
  cases n with
  | text s => rfl
  | elem t a cs =>
    show (if t = "p".data then (if cs.isEmpty then [] else cleanF cs)
      else []) = []
    by_cases htp : t = "p".data
    · rw [if_pos htp]
      cases cs with
      | nil => rfl
      | cons c cr =>
        exfalso
        have hx : isNonemptyP (Node.elem t a (c :: cr)) = true :=
          decide_eq_true htp
        rw [h] at hx
        exact Bool.false_ne_true hx
    · rw [if_neg htp]

theorem cleanKeep_hoist_of_all : ∀ cs : List Node,
    cs.all (fun c => ! isNonemptyP c) = true →
    cleanKeepF cs = cleanF cs ∧ cleanHoistF cs = [] := by
  intro cs
  induction cs with
  | nil => intro _; exact ⟨rfl, rfl⟩
  | cons c cr ihc =>
    intro hall
    have hall' := Bool.and_eq_true_iff.mp (show
      ((! isNonemptyP c) && cr.all (fun x => ! isNonemptyP x)) = true from hall)
    have hc : isNonemptyP c = false := by simpa using hall'.1
    obtain ⟨hk, hh⟩ := ihc hall'.2
    constructor
    · show (if isNonemptyP c then [] else [cleanN c]) ++ cleanKeepF cr =
        cleanN c :: cleanF cr
      rw [if_neg (show ¬ isNonemptyP c = true from fun hx =>
          Bool.false_ne_true (hc ▸ hx)), hk]
      rfl
    · show cleanHoistN c ++ cleanHoistF cr = []
      rw [cleanHoistN_nil c hc, hh]
      rfl

/-- The paragraph-flattening pass is the identity on canonical forests. -/
theorem clean_id : ∀ l : List Node, canonicalF l = true → cleanF l = l := by
  refine forestInd
    (fun n => canonicalN n = true → cleanN n = n)
    (fun l => canonicalF l = true → cleanF l = l)
    (fun _ _ => rfl) ?_ (fun _ => rfl) ?_
  · intro t a cs ih h
    have hp := canonicalN_parts t a cs h
    have hcs := ih hp.2.2.2.2.2
    show (if t = "p".data then Node.elem t a (cleanKeepF cs ++ cleanHoistF cs)
      else Node.elem t a (cleanF cs)) = Node.elem t a cs
    by_cases htp : t = "p".data
    · rw [if_pos htp]
      have hpp := hp.2.1
      rw [if_pos htp] at hpp
      have h1 := Bool.and_eq_true_iff.mp hpp
      have h2 := Bool.and_eq_true_iff.mp h1.1
      obtain ⟨hk, hh⟩ := cleanKeep_hoist_of_all cs h2.1
      rw [hk, hh, List.append_nil, hcs]
    · rw [if_neg htp, hcs]
  · intro n r ihn ihr h
    have h' := Bool.and_eq_true_iff.mp h
    show cleanN n :: cleanF r = n :: r
    rw [ihn h'.1, ihr h'.2]

/-- The marker-fixing pass is the identity on canonical forests. -/
theorem fixFormat_id : ∀ l : List Node, canonicalF l = true →
    fixFormatF l = l := by
  refine forestInd
    (fun n => canonicalN n = true → fixFormatN n = n)
    (fun l => canonicalF l = true → fixFormatF l = l)
    (fun _ _ => rfl) ?_ (fun _ => rfl) ?_
  · intro t a cs ih h
    have hp := canonicalN_parts t a cs h
    have hcs := ih hp.2.2.2.2.2
    simp only [fixFormatN]
    by_cases hes : t = "em".data ∨ t = "strong".data
    · rw [if_pos hes]
      cases hS : stringOfF cs with
      | none =>
        show Node.elem t a (fixFormatF cs) = Node.elem t a cs
        rw [hcs]
      | some s =>
        dsimp only
        by_cases hne2 : s ≠ []
        · rw [if_pos hne2]
          have hemc : ¬ (t = "em".data ∧ pyStarts "**".data s = true ∧
              pyEnds "**".data s = true) := by
            intro hc
            have h3 := hp.2.2.1
            rw [if_pos hc.1] at h3
            have hbad : emBad cs = false := by simpa using h3
            rw [emBad, hS] at hbad
            dsimp only at hbad
            have hsne : s.isEmpty = false := by
              rw [List.isEmpty_eq_false]
              exact hne2
            rw [hsne, hc.2.1, hc.2.2] at hbad
            exact absurd hbad (by decide)
          rw [if_neg hemc]
          have hstrc : ¬ (t = "strong".data ∧ pyStarts "*".data s = true ∧
              pyEnds "*".data s = true ∧ ¬ pyStarts "**".data s = true) := by
            intro hc
            have h4 := hp.2.2.2.1
            rw [if_pos hc.1] at h4
            have hbad : strongBad cs = false := by simpa using h4
            rw [strongBad, hS] at hbad
            dsimp only at hbad
            have hsne : s.isEmpty = false := by
              rw [List.isEmpty_eq_false]
              exact hne2
            rw [hsne, hc.2.1, hc.2.2.1,
              Bool.eq_false_iff.mpr hc.2.2.2] at hbad
            exact absurd hbad (by decide)
          rw [if_neg hstrc]
          show Node.elem t a (fixFormatF cs) = Node.elem t a cs
          rw [hcs]
        · rw [if_neg hne2]
          show Node.elem t a (fixFormatF cs) = Node.elem t a cs
          rw [hcs]
    · rw [if_neg hes]
      show Node.elem t a (fixFormatF cs) = Node.elem t a cs
      rw [hcs]
  · intro n r ihn ihr h
    have h' := Bool.and_eq_true_iff.mp h
    show fixFormatN n :: fixFormatF r = n :: r
    rw [ihn h'.1, ihr h'.2]

/-- The pruning pass is the identity on canonical forests: every paragraph
has significant text and a single-text paragraph is already collapsed. -/
theorem prune_id : ∀ l : List Node, canonicalF l = true → pruneF l = l := by
  refine forestInd
    (fun n => canonicalN n = true → pruneN n = some n)
    (fun l => canonicalF l = true → pruneF l = l)
    (fun _ _ => rfl) ?_ (fun _ => rfl) ?_
  · intro t a cs ih h
    have hp := canonicalN_parts t a cs h
    have hcs := ih hp.2.2.2.2.2
    show (if t = "p".data then
        if pyStrip (getTextF cs) = [] then none
        else match stringOfF cs with
          | some (c :: s) => some (Node.elem t a [Node.text (pyCollapse (c :: s))])
          | _ => some (Node.elem t a (pruneF cs))
      else some (Node.elem t a (pruneF cs))) = some (Node.elem t a cs)
    by_cases htp : t = "p".data
    · rw [if_pos htp]
      have hpp := hp.2.1
      rw [if_pos htp] at hpp
      have h1 := Bool.and_eq_true_iff.mp hpp
      have h2 := Bool.and_eq_true_iff.mp h1.1
      have hstrip : ¬ pyStrip (getTextF cs) = [] := by
        intro hx
        have hb := h2.2
        rw [decide_eq_true hx] at hb
        exact Bool.false_ne_true hb
      rw [if_neg hstrip]
      cases cs with
      | nil => rfl
      | cons c0 cr =>
        cases c0 with
        | text s =>
          cases cr with
          | nil =>
            cases s with
            | nil => rfl
            | cons ch st =>
              have hcol : pyCollapse (ch :: st) = ch :: st :=
                of_decide_eq_true h1.2
              show some (Node.elem t a [Node.text (pyCollapse (ch :: st))]) =
                some (Node.elem t a [Node.text (ch :: st)])
              rw [hcol]
          | cons c1 cr1 =>
            show some (Node.elem t a (pruneF (Node.text s :: c1 :: cr1))) =
              some (Node.elem t a (Node.text s :: c1 :: cr1))
            rw [hcs]
        | elem t1 a1 cs1 =>
          have htr : stringTruthy (stringOfF (Node.elem t1 a1 cs1 :: cr)) =
              false := by
            have hb := h1.2
            simpa using hb
          cases hS : stringOfF (Node.elem t1 a1 cs1 :: cr) with
          | none =>
            show some (Node.elem t a (pruneF (Node.elem t1 a1 cs1 :: cr))) =
              some (Node.elem t a (Node.elem t1 a1 cs1 :: cr))
            rw [hcs]
          | some s0 =>
            rw [hS] at htr
            cases s0 with
            | nil =>
              show some (Node.elem t a (pruneF (Node.elem t1 a1 cs1 :: cr))) =
                some (Node.elem t a (Node.elem t1 a1 cs1 :: cr))
              rw [hcs]
            | cons ch st =>
              simp [stringTruthy] at htr
    · rw [if_neg htp, hcs]
  · intro n r ihn ihr h
    have h' := Bool.and_eq_true_iff.mp h
    show (match pruneN n with
      | some n' => n' :: pruneF r
      | none => pruneF r) = n :: r
    rw [ihn h'.1]
    dsimp only
    rw [ihr h'.2]

/-- The table pass is the identity on canonical forests. -/
theorem fixTables_id : ∀ l : List Node, canonicalF l = true →
    fixTablesF l = l := by
  refine forestInd
    (fun n => canonicalN n = true → fixTablesN n = n)
    (fun l => canonicalF l = true → fixTablesF l = l)
    (fun _ _ => rfl) ?_ (fun _ => rfl) ?_
  · intro t a cs ih h
    have hp := canonicalN_parts t a cs h
    have hcond : ¬ (t = "table".data ∧ ¬ hasElemF "thead".data cs ∧
        ¬ hasElemF "tbody".data cs ∧ hasElemF "tr".data cs) := by
      intro hc
      have h5 := hp.2.2.2.2.1
      rw [if_pos hc.1] at h5
      rw [Bool.eq_false_iff.mpr hc.2.1, Bool.eq_false_iff.mpr hc.2.2.1,
        hc.2.2.2] at h5
      exact absurd h5 (by decide)
    simp only [fixTablesN]
    rw [if_neg hcond, ih hp.2.2.2.2.2]
  · intro n r ihn ihr h
    have h' := Bool.and_eq_true_iff.mp h
    show fixTablesN n :: fixTablesF r = n :: r
    rw [ihn h'.1, ihr h'.2]

/-- Every pass, hence the whole filter, is the identity on canonical
forests. -/
theorem filter_html_id (f : List Node) (h : canonicalF f = true) :
    filter_html f = f := by
  show fixTablesF (pruneF (fixFormatF (cleanF (normalizeF
    (handleListsF f))))) = f
  rw [handleLists_id f h, normalize_id f h, clean_id f h, fixFormat_id f h,
    prune_id f h, fixTables_id f h]

/-- C6 (amended): `filter_html` is idempotent at every input whose image
is in the canonical shape (approved vocabulary, flattened significant
paragraphs with collapsed single-text content, no stray emphasis markers,
tables with `thead`/`tbody` or no rows).  Unconditional idempotence fails
(theorem `c6_counterexample`). -/
theorem c6_idempotent_amended : ∀ f : List Node,
    canonicalF (filter_html f) = true →
    filter_html (filter_html f) = filter_html f := by
  intro f h
  exact filter_html_id (filter_html f) h

/-- Witness for the amended C6 theorem: the two-item list document\x27s
image is canonical, so the second run changes nothing. -/
theorem c6_idempotent_amended_witness :
    canonicalF (filter_html docListOneTwo) = true ∧
    filter_html (filter_html docListOneTwo) = filter_html docListOneTwo :=
  ⟨by decide, c6_idempotent_amended docListOneTwo (by decide)⟩

end MdConv
